import Mathlib

/-!
A verification development for the amelia orchestrator.

The definitions below are shallow embeddings of the Python sources:
pure functions become Lean functions, stateful loops become explicit
state passing, Python `dict`s keyed by step id become insertion-ordered
association lists, exceptions become `Except`, and external effects
(shell commands, the filesystem, the regex engine, wall-clock time)
become explicit oracle parameters.  Wall-clock fields
(`duration_seconds`, real timestamps) are omitted or opaque.

Record types such as `PlanStep`, `ExecutionBatch`, `ExecutionPlan`,
`ExecutionState`, `StreamEvent` and the enums they use are declared in
`amelia/core/state.py` and `amelia/core/types.py`; the staged copies of
those files lack them (only their importers are staged), so they are
modelled from the spec's data-model section, with a doc comment saying
so on each.  All algorithms (`get_cascade_skips`,
`validate_command_result`, `Developer._execute_step_with_fallbacks`,
`Developer._execute_batch`, `Developer._recover_from_blocker`,
`Developer.run`, `validate_and_split_batches`,
`TaskDAG.validate_task_graph`, `EventBus.emit`, `EventBus.emit_stream`,
`Profile.validate_work_profile_constraints`) are translated from the
staged sources.
-/

namespace Amelia

/-- Boolean substring test (Python `in` on strings), used to model
checks such as `"not found" in issue.lower()`. -/
def containsSub (s sub : String) : Bool :=
  s.toList.tails.any (fun t => sub.toList.isPrefixOf t)

/-- Python `str.lower()`, modelled as a character-wise ASCII lowering
(kernel-computable, unlike `String.toLower`). -/
def pyLower (s : String) : String :=
  String.mk (s.toList.map Char.toLower)

/-- Python `str.startswith(pre)`. -/
def pyStartsWith (s pre : String) : Bool :=
  pre.toList.isPrefixOf s.toList

/-- Modelled from the spec: risk-level enum (low/medium/high) of
`amelia.core.state.RiskLevel`, whose declaration is not in the staged
sources. -/
inductive RiskLevel where
  | low
  | medium
  | high
deriving DecidableEq

/-- Numeric rank of a risk level, used only spec-side to order risks. -/
def RiskLevel.rank : RiskLevel → Nat
  | .low => 0
  | .medium => 1
  | .high => 2

/-- Spec-side order on risk levels: `a` is at most as risky as `b`. -/
def RiskLevel.le (a b : RiskLevel) : Prop := a.rank ≤ b.rank

instance : DecidablePred (fun p : RiskLevel × RiskLevel => RiskLevel.le p.1 p.2) :=
  fun p => inferInstanceAs (Decidable (p.1.rank ≤ p.2.rank))

instance (a b : RiskLevel) : Decidable (RiskLevel.le a b) :=
  inferInstanceAs (Decidable (a.rank ≤ b.rank))

/-- Modelled from the spec: step action-type enum
(`code|command|validation|manual`). -/
inductive ActionType where
  | code
  | command
  | validation
  | manual
deriving DecidableEq

/-- String form of an action type, as it appears in error messages. -/
def ActionType.str : ActionType → String
  | .code => "code"
  | .command => "command"
  | .validation => "validation"
  | .manual => "manual"

/-- Modelled from the spec: status of a single executed step
(`StepResult.status`). -/
inductive StepStatus where
  | completed
  | failed
  | skipped
deriving DecidableEq

/-- Modelled from the spec: status of a batch run (`complete|blocked`). -/
inductive BatchStatus where
  | complete
  | blocked
deriving DecidableEq

/-- Modelled from the spec: `DeveloperStatus` enum
(`executing | batch_complete | blocked | all_done`). -/
inductive DeveloperStatus where
  | executing
  | batch_complete
  | blocked
  | all_done
deriving DecidableEq

/-- Modelled from the spec: blocker-type enum of `BlockerReport`. -/
inductive BlockerType where
  | command_failed
  | validation_failed
  | unexpected_state
  | dependency_skipped
  | needs_judgment
deriving DecidableEq

/-- Modelled from the spec: one plan step (spec data model, "Step").
`depends_on` is an ordered list of step ids; timing fields are absent
in the source model as well. -/
structure PlanStep where
  id : String
  description : String := ""
  action_type : ActionType := .command
  file_path : Option String := none
  code_change : Option String := none
  command : Option String := none
  validation_command : Option String := none
  fallback_commands : List String := []
  depends_on : List String := []
  risk_level : RiskLevel := .low
  requires_human_judgment : Bool := false
  expect_exit_code : Int := 0
  expected_output_pattern : Option String := none
  cwd : Option String := none
  is_test_step : Bool := false
  validates_step : Option String := none
deriving DecidableEq

/-- Modelled from the spec: one batch of a plan (spec data model,
"Batch"): 1-based number, ordered steps, risk summary, description. -/
structure ExecutionBatch where
  batch_number : Nat
  steps : List PlanStep
  risk_summary : RiskLevel
  description : String := ""
deriving DecidableEq

/-- Modelled from the spec: an execution plan (goal, ordered batches,
estimate, TDD flag). -/
structure ExecutionPlan where
  goal : String := ""
  batches : List ExecutionBatch
  total_estimated_minutes : Nat := 0
  tdd_approach : Bool := true
deriving DecidableEq

/-- Modelled from the spec: result of one step
(`step_id, status, output, error, executed_command`); the wall-clock
`duration_seconds` field is omitted. -/
structure StepResult where
  step_id : String
  status : StepStatus
  output : Option String := none
  error : Option String := none
  executed_command : Option String := none
deriving DecidableEq

/-- Modelled from the spec: a structured blocker report. -/
structure BlockerReport where
  step_id : String
  step_description : String
  blocker_type : BlockerType
  error_message : String
  attempted_actions : List String := []
  suggested_resolutions : List String := []
deriving DecidableEq

/-- Modelled from the spec: result of one batch run. -/
structure BatchResult where
  batch_number : Nat
  status : BatchStatus
  completed_steps : List StepResult := []
  blocker : Option BlockerReport := none
deriving DecidableEq

/-- `ValidationResult` of `Developer._pre_validate_step`
(amelia/agents/developer.py). -/
structure ValidationResult where
  ok : Bool
  issue : Option String := none
  attempted : List String := []
  suggestions : List String := []
deriving DecidableEq

/-- Modelled from the spec: one recorded batch approval
(batch number, approved flag, optional feedback; timestamp omitted). -/
structure BatchApproval where
  batch_number : Nat
  approved : Bool
  feedback : Option String := none
deriving DecidableEq

/-- Modelled from the spec: the graph's `ExecutionState` — the fields
the developer stage reads or writes, plus the remaining reduced fields
needed to state frame properties.  Issue/design/review/driver-session
fields are collapsed to plain values; none of the claims inspects their
structure. -/
structure ExecutionState where
  profile_id : String := ""
  execution_plan : Option ExecutionPlan := none
  current_batch_index : Nat := 0
  batch_results : List BatchResult := []
  batch_approvals : List BatchApproval := []
  current_blocker : Option BlockerReport := none
  blocker_resolution : Option String := none
  skipped_step_ids : List String := []
  developer_status : DeveloperStatus := .executing
  human_approved : Option Bool := none
  review_iteration : Nat := 0
  max_review_iterations : Nat := 3
  auto_approve : Bool := false
deriving DecidableEq

end Amelia

namespace Amelia

/-! ### Profile validation (amelia/core/types.py) -/

/-- `DriverType` literal of amelia/core/types.py:
`"cli:claude" | "api:openai" | "cli" | "api"`. -/
inductive DriverType where
  | cli_claude
  | api_openai
  | cli
  | api
deriving DecidableEq

/-- The literal string of a `DriverType` value. -/
def DriverType.str : DriverType → String
  | .cli_claude => "cli:claude"
  | .api_openai => "api:openai"
  | .cli => "cli"
  | .api => "api"

/-- `TrackerType` literal of amelia/core/types.py. -/
inductive TrackerType where
  | jira
  | github
  | none
  | noop
deriving DecidableEq

/-- `StrategyType` literal of amelia/core/types.py. -/
inductive StrategyType where
  | single
  | competitive
deriving DecidableEq

/-- `Profile` of amelia/core/types.py (name, driver, tracker, strategy,
plan output directory). -/
structure Profile where
  name : String
  driver : DriverType
  tracker : TrackerType := .none
  strategy : StrategyType := .single
  plan_output_dir : String := "docs/plans"
deriving DecidableEq

/-- The error message raised by `Profile.validate_work_profile_constraints`. -/
def workProfileErrorMsg (driver : DriverType) : String :=
  "Profile 'work' cannot use API drivers (got '" ++ driver.str ++
    "'). Use CLI drivers for enterprise compliance."

/-- `Profile.validate_work_profile_constraints` (amelia/core/types.py):
a pydantic model validator; raising `ValueError` is modelled as
`Except.error` carrying the message. -/
def Profile.validate_work_profile_constraints (p : Profile) : Except String Profile :=
  if pyLower p.name = "work" ∧ pyStartsWith p.driver.str "api" then
    .error (workProfileErrorMsg p.driver)
  else
    .ok p

/-! ### Event bus (amelia/server/events/bus.py) -/

/-- `StreamEventType` of amelia/core/types.py; the declaration is not
in the staged sources, modelled from the spec (stream subtypes). -/
inductive StreamEventType where
  | claude_thinking
  | claude_tool_call
  | claude_tool_result
  | agent_output
deriving DecidableEq

/-- `EventType` of amelia/server/models/events.py, plus the four
streaming trace members that `_STREAM_TO_EVENT_TYPE` in bus.py maps to
(present in the module bus.py imports them from). -/
inductive EventType where
  | workflow_started
  | workflow_completed
  | workflow_failed
  | workflow_cancelled
  | stage_started
  | stage_completed
  | approval_required
  | approval_granted
  | approval_rejected
  | file_created
  | file_modified
  | file_deleted
  | review_requested
  | review_completed
  | revision_requested
  | agent_message
  | task_started
  | task_completed
  | task_failed
  | system_error
  | system_warning
  | stream
  | claude_thinking
  | claude_tool_call
  | claude_tool_result
  | agent_output
deriving DecidableEq

/-- Modelled from the spec: event level enum (`info|debug|trace`). -/
inductive EventLevel where
  | info
  | debug
  | trace
deriving DecidableEq

/-- Modelled from the spec: `get_event_level` (imported by bus.py from
amelia/server/models/events.py, not in the staged copy): lifecycle,
stage, approval and review-completion events are info; task, file,
agent-message and warning events are debug; stream subtypes are trace. -/
def get_event_level : EventType → EventLevel
  | .workflow_started => .info
  | .workflow_completed => .info
  | .workflow_failed => .info
  | .workflow_cancelled => .info
  | .stage_started => .info
  | .stage_completed => .info
  | .approval_required => .info
  | .approval_granted => .info
  | .approval_rejected => .info
  | .review_completed => .info
  | .review_requested => .debug
  | .revision_requested => .debug
  | .file_created => .debug
  | .file_modified => .debug
  | .file_deleted => .debug
  | .agent_message => .debug
  | .task_started => .debug
  | .task_completed => .debug
  | .task_failed => .debug
  | .system_error => .debug
  | .system_warning => .debug
  | .stream => .trace
  | .claude_thinking => .trace
  | .claude_tool_call => .trace
  | .claude_tool_result => .trace
  | .agent_output => .trace

/-- Modelled from the spec: an ephemeral stream event
(amelia/core/types.py `StreamEvent`, not in the staged sources).
Timestamps are opaque naturals; `tool_input` is an opaque string. -/
structure StreamEvent where
  id : String
  type : StreamEventType
  content : Option String := none
  tool_name : Option String := none
  tool_input : Option String := none
  is_error : Bool := false
  agent : String := ""
  workflow_id : String
  timestamp : Nat := 0
deriving DecidableEq

/-- `WorkflowEvent` of amelia/server/models/events.py (with the
trace-carrying fields bus.py populates); timestamp opaque, `data`
payload collapsed to an optional string. -/
structure WorkflowEvent where
  id : String
  workflow_id : String
  sequence : Nat
  timestamp : Nat := 0
  agent : String := ""
  event_type : EventType
  level : EventLevel := .info
  message : String := ""
  data : Option String := none
  tool_name : Option String := none
  tool_input : Option String := none
  is_error : Bool := false
deriving DecidableEq

/-- A subscriber callback; raising is modelled by `Except.error`. -/
def Handler : Type := WorkflowEvent → Except String Unit

/-- `EventBus` state (amelia/server/events/bus.py): the subscriber
list, whether a connection manager was set, the trace-retention
setting, and the per-workflow sequence counters.  The broadcast-task
set is fire-and-forget bookkeeping and is not part of the model. -/
structure EventBus where
  subscribers : List Handler
  hasConnectionManager : Bool := false
  trace_retention_days : Int := 7
  sequence_counter : List (String × Nat) := []

/-- Outcome of calling one subscriber inside `emit`: either the event
was delivered, or the subscriber raised and the exception was caught
and logged with its message. -/
inductive CallOutcome where
  | delivered
  | loggedError (msg : String)

/-- One subscriber invocation wrapped in `emit`'s try/except. -/
def runSubscriber (h : Handler) (e : WorkflowEvent) : CallOutcome :=
  match h e with
  | .ok _ => .delivered
  | .error msg => .loggedError msg

/-- The subscriber loop of `EventBus.emit`: call every subscriber in
registration order, catching and logging each exception. -/
def emitLoop : List Handler → WorkflowEvent → List CallOutcome
  | [], _ => []
  | h :: rest, e => runSubscriber h e :: emitLoop rest e

/-- What one `EventBus.emit` call produced: the per-subscriber outcomes
(in registration order) and the workflow events handed to the
WebSocket broadcast (one, when a connection manager is set). -/
structure EmitResult where
  outcomes : List CallOutcome
  broadcasts : List WorkflowEvent

/-- `EventBus.emit` (amelia/server/events/bus.py): iterate subscribers
synchronously, each wrapped in try/except; then dispatch a broadcast
task when a connection manager is set. -/
def EventBus.emit (bus : EventBus) (e : WorkflowEvent) : EmitResult :=
  { outcomes := emitLoop bus.subscribers e
    broadcasts := if bus.hasConnectionManager then [e] else [] }

/-- `EventBus._get_next_sequence`: read the workflow's counter
(default 0), increment, store, return the incremented value. -/
def EventBus.get_next_sequence (bus : EventBus) (workflow_id : String) :
    Nat × EventBus :=
  let current := ((bus.sequence_counter.find? (fun p => p.1 = workflow_id)).map
    Prod.snd).getD 0
  let next_seq := current + 1
  (next_seq,
    { bus with sequence_counter :=
        (workflow_id, next_seq) ::
          bus.sequence_counter.filter (fun p => p.1 ≠ workflow_id) })

/-- `_STREAM_TO_EVENT_TYPE` of bus.py. -/
def streamToEventType : StreamEventType → EventType
  | .claude_thinking => .claude_thinking
  | .claude_tool_call => .claude_tool_call
  | .claude_tool_result => .claude_tool_result
  | .agent_output => .agent_output

/-- `EventBus._build_trace_message`. -/
def buildTraceMessage (e : StreamEvent) : String :=
  match e.type with
  | .claude_thinking => "Agent thinking"
  | .claude_tool_call => "Tool call: " ++ (e.tool_name.getD "unknown")
  | .claude_tool_result =>
      "Tool result: " ++ (e.tool_name.getD "unknown") ++
        (if e.is_error then " (error)" else " (success)")
  | .agent_output => "Agent output"

/-- `EventBus._convert_to_workflow_event`: build the persisted
`WorkflowEvent` for a stream event, drawing the next per-workflow
sequence number. -/
def EventBus.convert_to_workflow_event (bus : EventBus) (e : StreamEvent) :
    WorkflowEvent × EventBus :=
  let (seq, bus') := bus.get_next_sequence e.workflow_id
  let et := streamToEventType e.type
  ({ id := e.id
     workflow_id := e.workflow_id
     sequence := seq
     timestamp := e.timestamp
     agent := e.agent
     event_type := et
     level := get_event_level et
     message := buildTraceMessage e
     data := e.content
     tool_name := e.tool_name
     tool_input := e.tool_input
     is_error := e.is_error }, bus')

/-- What one `EventBus.emit_stream` call produced: the workflow events
routed through `emit` (persistence path), the per-subscriber outcomes
of that routed emit, the workflow events handed to the event broadcast
inside `emit`, and the stream events handed to the streaming
broadcast. -/
structure StreamEmitResult where
  emitted : List WorkflowEvent
  outcomes : List CallOutcome
  event_broadcasts : List WorkflowEvent
  stream_broadcasts : List StreamEvent

/-- `EventBus.emit_stream` (amelia/server/events/bus.py).
`stream_tool_results` is the `ServerConfig().stream_tool_results` flag
read at call time (the config module is not in the staged sources; the
spec: tool-result events are suppressed unless the flag opts in). -/
def EventBus.emit_stream (bus : EventBus) (stream_tool_results : Bool)
    (e : StreamEvent) : EventBus × StreamEmitResult :=
  if e.type = StreamEventType.claude_tool_result ∧ ¬ stream_tool_results then
    (bus, { emitted := [], outcomes := [], event_broadcasts := [],
            stream_broadcasts := [] })
  else
    let (bus1, emitted, outcomes, ebr) :=
      if bus.trace_retention_days > 0 then
        let (we, bus') := bus.convert_to_workflow_event e
        let r := bus'.emit we
        (bus', [we], r.outcomes, r.broadcasts)
      else
        (bus, [], [], [])
    (bus1,
      { emitted := emitted
        outcomes := outcomes
        event_broadcasts := ebr
        stream_broadcasts := if bus1.hasConnectionManager then [e] else [] })

end Amelia

namespace Amelia

/-! ### Developer agent (amelia/agents/developer.py) -/

/-- Modelled from the spec: `strip_ansi` (amelia.core.utils; the staged
copy of that module is absent, only the import is staged).  The spec:
"strip ANSI escape sequences from captured stdout".  Modelled as a scan
removing ESC-introduced sequences up to their final byte. -/
def stripAnsiAux : Bool → List Char → List Char
  | _, [] => []
  | false, c :: rest =>
      if c.toNat = 27 then stripAnsiAux true rest
      else c :: stripAnsiAux false rest
  | true, c :: rest =>
      if 0x40 ≤ c.toNat ∧ c.toNat ≤ 0x7E ∧ c ≠ '[' then stripAnsiAux false rest
      else stripAnsiAux true rest

/-- Modelled from the spec: ANSI stripping over strings. -/
def strip_ansi (s : String) : String :=
  String.mk (stripAnsiAux false s.toList)

/-- `validate_command_result` (amelia/agents/developer.py): exit code
checked first against `expect_exit_code`; then, when
`expected_output_pattern` is set, `re.search` over the ANSI-stripped
stdout.  The Python regex engine is an external oracle `re_search`
(pattern → text → found). -/
def validate_command_result (re_search : String → String → Bool)
    (exit_code : Int) (stdout : String) (step : PlanStep) : Bool :=
  if exit_code ≠ step.expect_exit_code then false
  else
    match step.expected_output_pattern with
    | some pat =>
        if ¬ re_search pat (strip_ansi stdout) then false else true
    | none => true

/-- The skip-reason dictionaries of `get_cascade_skips`: Python `dict`s
keyed by step id with insertion order, modelled as association lists to
which fresh keys are appended. -/
abbrev SkipMap := List (String × String)

/-- Python `key in dict`. -/
def mapMem (m : SkipMap) (k : String) : Bool :=
  m.any (fun p => p.1 = k)

/-- All steps of a plan, batches in order, steps in order — the
iteration order of the nested loop in `get_cascade_skips`. -/
def planSteps (plan : ExecutionPlan) : List PlanStep :=
  (plan.batches.map ExecutionBatch.steps).flatten

/-- The cascade-skip reason recorded for a step skipped because of
dependency `dep`. -/
def cascadeReason (dep : String) : String :=
  "Depends on skipped step " ++ dep

/-- One step of the inner loop of `get_cascade_skips`: the state is
(all_skipped, result, found_new_skips).  A step already in
`all_skipped` is left alone; otherwise the first dependency found in
`all_skipped` (the inner `for`/`break`) adds the step to both maps and
raises the flag. -/
def cascadeStep (st : SkipMap × SkipMap × Bool) (step : PlanStep) :
    SkipMap × SkipMap × Bool :=
  let (allSk, res, found) := st
  if mapMem allSk step.id then st
  else
    match step.depends_on.find? (fun d => mapMem allSk d) with
    | some d =>
        (allSk ++ [(step.id, cascadeReason d)],
         res ++ [(step.id, cascadeReason d)], true)
    | none => st

/-- One full pass of the `while found_new_skips` loop body: iterate all
steps of all batches with the flag reset to false. -/
def cascadePass (plan : ExecutionPlan) (allSk res : SkipMap) :
    SkipMap × SkipMap × Bool :=
  (planSteps plan).foldl cascadeStep (allSk, res, false)

/-- The `while found_new_skips` loop of `get_cascade_skips`, with
explicit fuel.  The Python loop terminates because every productive
pass adds a step id; `get_cascade_skips` runs it with provably
sufficient fuel, so the fuel-exhaustion branch is dead. -/
def cascadeLoop (plan : ExecutionPlan) : Nat → SkipMap → SkipMap → SkipMap
  | 0, _, res => res
  | fuel + 1, allSk, res =>
      match cascadePass plan allSk res with
      | (allSk', res', true) => cascadeLoop plan fuel allSk' res'
      | (_, res', false) => res'

/-- `get_cascade_skips` (amelia/agents/developer.py): fixed-point
cascade over `depends_on`, returning only the newly skipped steps.
The `step_id` parameter is unused by the source body as well. -/
def get_cascade_skips (step_id : String) (plan : ExecutionPlan)
    (skip_reasons : SkipMap) : SkipMap :=
  cascadeLoop plan ((planSteps plan).length + 1) skip_reasons []

/-- External effects of the developer agent: the shell executor, the
file writer (both raise on failure, modelled by `Except.error`), and
the tiered pre-validation step, whose filesystem and LLM checks are
outside the model. -/
structure DevEnv where
  run_shell_command : String → Except String String
  write_file : String → String → Except String String
  pre_validate_step : PlanStep → ExecutionState → ValidationResult

/-- The command loop of the `command` branch of
`_execute_step_with_fallbacks`: try each entry of
`[step.command] + fallback_commands` in order, skipping falsy entries,
remembering the last error. -/
def tryCommands (env : DevEnv) (step : PlanStep) (allCmds : List (Option String)) :
    List (Option String) → Option String → StepResult
  | [], lastError =>
      { step_id := step.id
        status := .failed
        output := none
        error := lastError
        executed_command := (allCmds.getLast?.getD none) }
  | cmd :: rest, lastError =>
      match cmd with
      | none => tryCommands env step allCmds rest lastError
      | some c =>
          if c = "" then tryCommands env step allCmds rest lastError
          else
            match env.run_shell_command c with
            | .ok output =>
                { step_id := step.id
                  status := .completed
                  output := some output
                  error := none
                  executed_command := some c }
            | .error e => tryCommands env step allCmds rest (some e)

/-- `Developer._execute_step_with_fallbacks`
(amelia/agents/developer.py): dispatch on the step's action type; the
outer try/except that converts any raised error into a failed
`StepResult` is folded into each branch. -/
def execute_step_with_fallbacks (env : DevEnv) (step : PlanStep)
    (_state : ExecutionState) : StepResult :=
  match step.action_type with
  | .code =>
      if step.file_path = none ∨ step.code_change = none then
        { step_id := step.id, status := .failed, output := none
          error := some "Code action requires file_path and code_change"
          executed_command := none }
      else
        match env.write_file (step.file_path.getD "") (step.code_change.getD "") with
        | .error e =>
            { step_id := step.id, status := .failed, output := none
              error := some e, executed_command := none }
        | .ok _ =>
            let output := "Wrote code to " ++ step.file_path.getD ""
            match step.validation_command with
            | some vc =>
                (match env.run_shell_command vc with
                 | .ok vOut =>
                     { step_id := step.id, status := .completed
                       output := some (output ++ "\nValidation: " ++ vOut)
                       error := none, executed_command := none }
                 | .error e =>
                     { step_id := step.id, status := .failed
                       output := some output
                       error := some ("Validation failed: " ++ e)
                       executed_command := some vc })
            | none =>
                { step_id := step.id, status := .completed
                  output := some output, error := none
                  executed_command := none }
  | .command =>
      let commands_to_try := [step.command] ++ step.fallback_commands.map some
      tryCommands env step commands_to_try commands_to_try none
  | .validation =>
      match step.validation_command with
      | none =>
          { step_id := step.id, status := .failed, output := none
            error := some "Validation action requires validation_command"
            executed_command := none }
      | some vc =>
          match env.run_shell_command vc with
          | .ok output =>
              { step_id := step.id, status := .completed
                output := some output, error := none
                executed_command := some vc }
          | .error e =>
              { step_id := step.id, status := .failed, output := none
                error := some e, executed_command := some vc }
  | .manual =>
      { step_id := step.id, status := .failed, output := none
        error := some ("Unsupported action type: " ++ step.action_type.str)
        executed_command := none }

/-- The blocker report built when pre-validation fails: blocker type
`unexpected_state` when the issue mentions "not found", else
`validation_failed`. -/
def preValidationBlocker (step : PlanStep) (validation : ValidationResult) :
    BlockerReport :=
  let bt : BlockerType :=
    match validation.issue with
    | some issue =>
        if containsSub (pyLower issue) "not found" then .unexpected_state
        else .validation_failed
    | none => .validation_failed
  { step_id := step.id
    step_description := step.description
    blocker_type := bt
    error_message := validation.issue.getD "Pre-validation failed"
    attempted_actions := validation.attempted
    suggested_resolutions := validation.suggestions }

/-- The blocker report built when step execution fails: blocker type
`command_failed` for command steps, else `validation_failed`. -/
def executionBlocker (step : PlanStep) (result : StepResult) : BlockerReport :=
  { step_id := step.id
    step_description := step.description
    blocker_type :=
      if step.action_type = ActionType.command then .command_failed
      else .validation_failed
    error_message := result.error.getD "Step execution failed"
    attempted_actions :=
      match result.executed_command with
      | some c => [c]
      | none => []
    suggested_resolutions := [] }

/-- The per-step body of `Developer._execute_batch`, iterated over the
batch's steps: cascade-skip check, pre-validation, execution; a
pre-validation or execution failure returns a blocked `BatchResult`
immediately (the git snapshot taken before the loop has no effect on
the result and is not modelled). -/
def executeBatchLoop (env : DevEnv) (batchNumber : Nat) (state : ExecutionState) :
    List PlanStep → List StepResult → BatchResult
  | [], completed =>
      { batch_number := batchNumber, status := .complete
        completed_steps := completed, blocker := none }
  | step :: rest, completed =>
      match step.depends_on.filter (fun d => state.skipped_step_ids.contains d) with
      | dep0 :: _ =>
          executeBatchLoop env batchNumber state rest
            (completed ++ [{ step_id := step.id, status := .skipped
                             error := some ("Dependency " ++ dep0 ++ " was skipped") }])
      | [] =>
          let validation := env.pre_validate_step step state
          if validation.ok then
            let result := execute_step_with_fallbacks env step state
            if result.status = StepStatus.failed then
              { batch_number := batchNumber, status := .blocked
                completed_steps := completed
                blocker := some (executionBlocker step result) }
            else
              executeBatchLoop env batchNumber state rest (completed ++ [result])
          else
            { batch_number := batchNumber, status := .blocked
              completed_steps := completed
              blocker := some (preValidationBlocker step validation) }

/-- `Developer._execute_batch` (amelia/agents/developer.py). -/
def execute_batch (env : DevEnv) (batch : ExecutionBatch) (state : ExecutionState) :
    BatchResult :=
  executeBatchLoop env batch.batch_number state batch.steps []

/-- The step loop of `Developer._recover_from_blocker`: skip steps
already completed, start executing at the blocked step, with the same
cascade-skip / pre-validation / execution handling as a batch run. -/
def recoverLoop (env : DevEnv) (batchNumber : Nat) (state : ExecutionState)
    (previously_completed : List StepResult) (blocked_step_id : String) :
    List PlanStep → Bool → List StepResult → BatchResult
  | [], _, completed =>
      { batch_number := batchNumber, status := .complete
        completed_steps := completed, blocker := none }
  | step :: rest, found, completed =>
      if previously_completed.any (fun s => s.step_id = step.id) then
        recoverLoop env batchNumber state previously_completed blocked_step_id
          rest found completed
      else
        let found := found ∨ step.id = blocked_step_id
        if ¬ found then
          recoverLoop env batchNumber state previously_completed blocked_step_id
            rest found completed
        else
          match step.depends_on.filter (fun d => state.skipped_step_ids.contains d) with
          | dep0 :: _ =>
              recoverLoop env batchNumber state previously_completed blocked_step_id
                rest found
                (completed ++ [{ step_id := step.id, status := .skipped
                                 error := some ("Dependency " ++ dep0 ++ " was skipped") }])
          | [] =>
              let validation := env.pre_validate_step step state
              if validation.ok then
                let result := execute_step_with_fallbacks env step state
                if result.status = StepStatus.failed then
                  { batch_number := batchNumber, status := .blocked
                    completed_steps := completed
                    blocker := some (executionBlocker step result) }
                else
                  recoverLoop env batchNumber state previously_completed
                    blocked_step_id rest found (completed ++ [result])
              else
                { batch_number := batchNumber, status := .blocked
                  completed_steps := completed
                  blocker := some (preValidationBlocker step validation) }

/-- `Developer._recover_from_blocker` (amelia/agents/developer.py);
`ValueError`s become `Except.error`, and the batch lookup at
`current_batch_index` (an unchecked index in Python, guarded by the
caller) errs when out of range. -/
def recover_from_blocker (env : DevEnv) (state : ExecutionState) :
    Except String BatchResult :=
  match state.execution_plan with
  | none => .error "No execution plan in state"
  | some plan =>
      match state.current_blocker with
      | none => .error "No current blocker in state"
      | some blocker =>
          match plan.batches[state.current_batch_index]? with
          | none => .error "list index out of range"
          | some batch =>
              let previously_completed : List StepResult :=
                match state.batch_results.getLast? with
                | some last =>
                    if last.batch_number = batch.batch_number then
                      last.completed_steps
                    else []
                | none => []
              .ok (recoverLoop env batch.batch_number state previously_completed
                blocker.step_id batch.steps false previously_completed)

/-- The dictionary delta returned by `Developer.run`: present keys
only.  `current_blocker` and `blocker_resolution` deltas carry the
value written (possibly `none`, for an explicit `None`). -/
structure RunDelta where
  developer_status : Option DeveloperStatus := none
  current_blocker : Option (Option BlockerReport) := none
  batch_results : Option (List BatchResult) := none
  current_batch_index : Option Nat := none
  blocker_resolution : Option (Option String) := none
deriving DecidableEq

/-- Apply a `Developer.run` delta to the state through the graph's
reducers: `batch_results` is append-only (concatenation), every other
field replaces. -/
def applyRunDelta (state : ExecutionState) (d : RunDelta) : ExecutionState :=
  { state with
    developer_status := d.developer_status.getD state.developer_status
    current_blocker :=
      match d.current_blocker with
      | some v => v
      | none => state.current_blocker
    batch_results := state.batch_results ++ (d.batch_results.getD [])
    current_batch_index := d.current_batch_index.getD state.current_batch_index
    blocker_resolution :=
      match d.blocker_resolution with
      | some v => v
      | none => state.blocker_resolution }

/-- Truthiness test of `state.blocker_resolution and
state.blocker_resolution not in ("skip", "abort")`: a non-empty string
different from both sentinels selects the recovery path. -/
def isFixInstruction : Option String → Bool
  | none => false
  | some r => ¬ (r = "" ∨ r = "skip" ∨ r = "abort")

/-- The recovery-vs-execute branch of `Developer.run`: recover when
`blocker_resolution` holds a fix instruction, else execute the current
batch (`plan.batches[current_batch_index]`, in range at the call
site). -/
def Developer.runBatchResult (env : DevEnv) (state : ExecutionState)
    (plan : ExecutionPlan) : Except String BatchResult :=
  if isFixInstruction state.blocker_resolution then
    recover_from_blocker env state
  else
    .ok (execute_batch env (plan.batches.getD state.current_batch_index
      { batch_number := 0, steps := [], risk_summary := .low }) state)

/-- `Developer.run` (amelia/agents/developer.py): all-done short
circuit, recovery-vs-execute branch, then the blocked or
batch-complete delta. -/
def Developer.run (env : DevEnv) (state : ExecutionState) :
    Except String RunDelta :=
  match state.execution_plan with
  | none => .error "No execution plan in state"
  | some plan =>
      let current_batch_idx := state.current_batch_index
      if current_batch_idx ≥ plan.batches.length then
        .ok { developer_status := some .all_done }
      else
        match Developer.runBatchResult env state plan with
        | .error e => .error e
        | .ok result =>
            if result.status = BatchStatus.blocked then
              .ok { current_blocker := some result.blocker
                    developer_status := some .blocked
                    batch_results := some [result] }
            else
              .ok { batch_results := some [result]
                    current_batch_index := some (current_batch_idx + 1)
                    developer_status := some .batch_complete
                    blocker_resolution := some none }

end Amelia

namespace Amelia

/-! ### Batch validation (amelia/agents/architect.py) -/

/-- `RISK_LIMITS` of `validate_and_split_batches`: maximum batch size
per risk level. -/
def RISK_LIMITS : RiskLevel → Nat
  | .low => 5
  | .medium => 3
  | .high => 1

/-- The literal string of a risk level, for warning messages. -/
def RiskLevel.str : RiskLevel → String
  | .low => "low"
  | .medium => "medium"
  | .high => "high"

/-- Structural worker for `chunksOf`: the fuel only bounds the number
of chunks (one chunk consumes at least one element when `n ≥ 1`, so
`fuel = l.length` suffices) and keeps the recursion kernel-reducible. -/
def chunksOfAux (n : Nat) : Nat → List PlanStep → List (List PlanStep)
  | 0, _ => []
  | _, [] => []
  | fuel + 1, s :: l => ((s :: l).take n) :: chunksOfAux n fuel ((s :: l).drop n)

/-- The Python slicing loop `for i in range(0, len(steps), max_size)`:
split a list into consecutive chunks of `n`.  The call sites always
pass `n ≥ 1` (a zero step would raise in `range`; the guard is dead
code serving totality). -/
def chunksOf (n : Nat) (l : List PlanStep) : List (List PlanStep) :=
  if n = 0 then [] else chunksOfAux n l.length l

/-- The chunk risk computation of `validate_and_split_batches`: high if
any step is high-risk, else medium if any is medium, else low. -/
def chunkRisk (chunk : List PlanStep) : RiskLevel :=
  if chunk.any (fun s => s.risk_level = RiskLevel.high) then .high
  else if chunk.any (fun s => s.risk_level = RiskLevel.medium) then .medium
  else .low

/-- The warning recorded when a batch is split. -/
def splitWarning (batch : ExecutionBatch) (max_size : Nat) : String :=
  "Batch " ++ toString batch.batch_number ++ " exceeded size limit for " ++
    batch.risk_summary.str ++ " risk (" ++ toString batch.steps.length ++
    " steps > " ++ toString max_size ++ " max). Split into multiple batches."

/-- The split of one oversized batch into chunk batches (batch numbers
left at the 0 placeholder, renumbered later). -/
def splitBatchChunks (batch : ExecutionBatch) : List ExecutionBatch :=
  (chunksOf (RISK_LIMITS batch.risk_summary) batch.steps).map (fun chunk =>
    { batch_number := 0
      steps := chunk
      risk_summary := chunkRisk chunk
      description := batch.description })

/-- The per-batch body of `validate_and_split_batches`: keep a batch
within its risk limit, else record a warning and append its chunks. -/
def splitFoldStep (acc : List ExecutionBatch × List String)
    (batch : ExecutionBatch) : List ExecutionBatch × List String :=
  let max_size := RISK_LIMITS batch.risk_summary
  if batch.steps.length ≤ max_size then (acc.1 ++ [batch], acc.2)
  else (acc.1 ++ splitBatchChunks batch, acc.2 ++ [splitWarning batch max_size])

/-- `validate_and_split_batches` (amelia/agents/architect.py): enforce
per-risk batch size limits, splitting oversized batches and renumbering
all batches sequentially from 1. -/
def validate_and_split_batches (plan : ExecutionPlan) :
    ExecutionPlan × List String :=
  let folded := plan.batches.foldl splitFoldStep ([], [])
  let renumbered := folded.1.enum.map (fun p =>
    { p.2 with batch_number := p.1 + 1 })
  ({ goal := plan.goal
     batches := renumbered
     total_estimated_minutes := plan.total_estimated_minutes
     tdd_approach := plan.tdd_approach }, folded.2)

end Amelia

namespace Amelia

/-! ### Task DAG validation (amelia/core/state.py) -/

/-- `TaskStatus` literal of amelia/core/state.py. -/
inductive TaskStatus where
  | pending
  | in_progress
  | completed
  | failed
deriving DecidableEq

/-- `FileOperation.operation` literal. -/
inductive FileOp where
  | create
  | modify
  | test
deriving DecidableEq

/-- `FileOperation` of amelia/core/state.py. -/
structure FileOperation where
  operation : FileOp
  path : String
  line_range : Option String := none
deriving DecidableEq

/-- `TaskStep` of amelia/core/state.py. -/
structure TaskStep where
  description : String
  code : Option String := none
  command : Option String := none
  expected_output : Option String := none
deriving DecidableEq

/-- `Task` of amelia/core/state.py. -/
structure Task where
  id : String
  description : String := ""
  status : TaskStatus := .pending
  dependencies : List String := []
  files : List FileOperation := []
  steps : List TaskStep := []
  commit_message : Option String := none
deriving DecidableEq

/-- The id set `task_ids = {t.id for t in tasks}`, determinized as the
duplicate-free list of ids in first-occurrence order (only membership
and cardinality are used). -/
def taskIds (tasks : List Task) : List String :=
  (tasks.map Task.id).dedup

/-- The missing-dependency scan: the first dependency (tasks in order,
dependencies in order) that is not a task id. -/
def findMissingDep (tasks : List Task) : Option String :=
  tasks.findSome? (fun t =>
    t.dependencies.find? (fun d => ¬ (taskIds tasks).contains d))

/-- The `adjacency = {t.id: t.dependencies for t in tasks}` dictionary
(on duplicate ids the later task wins, as in a Python dict
comprehension), with `adjacency.get(node, [])` lookup. -/
def adjOf (tasks : List Task) (x : String) : List String :=
  match tasks.reverse.find? (fun t => t.id = x) with
  | some t => t.dependencies
  | none => []

/-- The WHITE/GRAY/BLACK colouring of the cycle-detection DFS. -/
inductive Color where
  | white
  | gray
  | black
deriving DecidableEq

/-- `color[x] = col` as a functional update. -/
def paint (c : String → Color) (x : String) (col : Color) : String → Color :=
  fun y => if y = x then col else c y

/-- The `for neighbor in adjacency.get(node, [])` loop of `dfs`,
parameterised by the recursive visit (`dfsVisit` one fuel level down):
a GRAY neighbour is a back edge (cycle), a WHITE neighbour is visited
recursively, a BLACK neighbour is skipped. -/
def dfsGo (visit : (String → Color) → String → (String → Color) × Bool) :
    (String → Color) → List String → (String → Color) × Bool
  | c, [] => (c, false)
  | c, n :: rest =>
      if c n = Color.gray then (c, true)
      else if c n = Color.white then
        match visit c n with
        | (c2, true) => (c2, true)
        | (c2, false) => dfsGo visit c2 rest
      else dfsGo visit c rest

/-- The recursive `dfs(node)` of `TaskDAG.validate_task_graph`: mark
the node GRAY, scan its neighbours, then mark it BLACK and report no
cycle.  The Python recursion is unbounded; the fuel only bounds the
recursion depth (each nested visit strictly shrinks the set of WHITE
ids, so the `ids.length + 1` passed at the call site provably never
exhausts) and keeps the definition kernel-reducible. -/
def dfsVisit (nbrs : String → List String) :
    Nat → (String → Color) → String → (String → Color) × Bool
  | 0, c, _ => (c, false)
  | fuel + 1, c, node =>
      match dfsGo (dfsVisit nbrs fuel) (paint c node .gray) (nbrs node) with
      | (c2, true) => (c2, true)
      | (c2, false) => (paint c2 node .black, false)

/-- The `for tid in task_ids: if color[tid] == WHITE and dfs(tid)` loop
of `validate_task_graph`. -/
def dfsAll (nbrs : String → List String) (fuel : Nat) :
    (String → Color) → List String → (String → Color) × Bool
  | c, [] => (c, false)
  | c, t :: rest =>
      if c t = Color.white then
        match dfsVisit nbrs fuel c t with
        | (c2, true) => (c2, true)
        | (c2, false) => dfsAll nbrs fuel c2 rest
      else dfsAll nbrs fuel c rest

/-- `TaskDAG.validate_task_graph` (amelia/core/state.py): reject a
dependency on an unknown task id first, then reject cycles found by the
WHITE/GRAY/BLACK DFS, else return the task list unchanged.  Raising
`ValueError` is modelled as `Except.error` with the raised message. -/
def validate_task_graph (tasks : List Task) : Except String (List Task) :=
  match findMissingDep tasks with
  | some d => .error ("Task '" ++ d ++ "' not found")
  | none =>
      let ids := taskIds tasks
      if (dfsAll (adjOf tasks) (ids.length + 1) (fun _ => Color.white) ids).2 then
        .error "Cyclic dependency detected"
      else
        .ok tasks

end Amelia

namespace Amelia

/-! ### Spec-side predicates and concrete instances for the claims -/

/-- Spec-side cascade closure (spec §4.6: "Given initial skipped set
S₀, iterate: for every step s not in S whose `depends_on` intersects S,
add s to S; repeat until stable"): the least set containing the initial
ids and closed under taking a plan step one of whose dependencies is in
the set. -/
inductive SkippedClosure (steps : List PlanStep) (init : String → Prop) :
    String → Prop
  | base (x : String) : init x → SkippedClosure steps init x
  | cascade (s : PlanStep) (d : String) : s ∈ steps → d ∈ s.depends_on →
      SkippedClosure steps init d → SkippedClosure steps init s.id

/-- Spec-side dependency edge of a task list: `u` depends on `v`. -/
def depEdge (tasks : List Task) (u v : String) : Prop :=
  v ∈ adjOf tasks u

/-- Spec-side: the tasks' dependency graph contains a (nonempty) cycle. -/
def hasTaskCycle (tasks : List Task) : Prop :=
  ∃ x, Relation.TransGen (depEdge tasks) x x

/-- A literal-pattern stand-in for the Python regex oracle: for
patterns free of regex metacharacters, `re.search(pattern, text)`
coincides with substring containment. -/
def reSearchLit (pattern text : String) : Bool :=
  containsSub text pattern

/-- Claim C4 as stated, at one plan: after validation every batch obeys
its risk-summary size limit, the concatenation of steps is preserved in
order, and batch numbers run sequentially from 1. -/
def C4SizeLimitProp (plan : ExecutionPlan) : Prop :=
  (∀ b ∈ (validate_and_split_batches plan).1.batches,
    b.steps.length ≤ RISK_LIMITS b.risk_summary) ∧
  ((validate_and_split_batches plan).1.batches.map ExecutionBatch.steps).flatten =
    (plan.batches.map ExecutionBatch.steps).flatten ∧
  (validate_and_split_batches plan).1.batches.map ExecutionBatch.batch_number =
    List.range' 1 (validate_and_split_batches plan).1.batches.length

/-- Claim C5 as stated, at one plan: after validation every high-risk
step sits in a batch of its own. -/
def C5IsolationProp (plan : ExecutionPlan) : Prop :=
  ∀ b ∈ (validate_and_split_batches plan).1.batches,
    ∀ s ∈ b.steps, s.risk_level = RiskLevel.high → b.steps = [s]

/-- Hypothesis under which C4/C5 are amended: every batch's risk
summary bounds the risk level of each of its steps. -/
def riskDominated (plan : ExecutionPlan) : Prop :=
  ∀ b ∈ plan.batches, ∀ s ∈ b.steps, RiskLevel.le s.risk_level b.risk_summary

/-- Claim C8 as stated (quantified over buses with a connection
manager, the tool-result opt-in flag and stream events): with retention
0 nothing reaches subscribers but the stream still reaches the
streaming broadcast; with retention positive the event is converted and
emitted to subscribers with the same workflow id and the next sequence
number. -/
def C8StreamProp : Prop :=
  ∀ (bus : EventBus) (flag : Bool) (e : StreamEvent),
    bus.hasConnectionManager = true →
    ((bus.trace_retention_days = 0 →
        (bus.emit_stream flag e).2.emitted = [] ∧
        (bus.emit_stream flag e).2.stream_broadcasts = [e]) ∧
     (bus.trace_retention_days > 0 →
        ∃ we, (bus.emit_stream flag e).2.emitted = [we] ∧
          we.workflow_id = e.workflow_id ∧
          we.sequence =
            (((bus.sequence_counter.find? (fun p => p.1 = e.workflow_id)).map
              Prod.snd).getD 0) + 1))

/-- An all-succeeding developer environment: every shell command prints
"ok", every file write succeeds, pre-validation passes. -/
def envOk : DevEnv :=
  { run_shell_command := fun _ => .ok "ok"
    write_file := fun _ _ => .ok "written"
    pre_validate_step := fun _ _ => { ok := true } }

/-- A developer environment whose shell always fails. -/
def envShellFails : DevEnv :=
  { run_shell_command := fun _ => .error "boom"
    write_file := fun _ _ => .ok "written"
    pre_validate_step := fun _ _ => { ok := true } }

/-- One-batch plan with a single low-risk command step. -/
def planOneBatch : ExecutionPlan :=
  { batches := [{ batch_number := 1
                  steps := [{ id := "step-1", action_type := .command
                              command := some "echo hi" }]
                  risk_summary := .low }] }

/-- State positioned at the (final) single batch of `planOneBatch`. -/
def stateOneBatch : ExecutionState :=
  { execution_plan := some planOneBatch, current_batch_index := 0 }

/-- The step result `envOk` produces for the step of `planOneBatch`. -/
def stepResultOneBatch : StepResult :=
  { step_id := "step-1", status := .completed, output := some "ok"
    executed_command := some "echo hi" }

/-- The plan of the C4 counterexample: one medium-risk batch of four
steps whose first step is high-risk. -/
def planC4demo : ExecutionPlan :=
  { batches := [{ batch_number := 1
                  steps := [{ id := "h1", risk_level := .high },
                            { id := "m2", risk_level := .medium },
                            { id := "m3", risk_level := .medium },
                            { id := "m4", risk_level := .medium }]
                  risk_summary := .medium }] }

/-- The plan of the C5 counterexample: one low-summary batch of two
steps, the first of which is high-risk. -/
def planC5demo : ExecutionPlan :=
  { batches := [{ batch_number := 1
                  steps := [{ id := "h1", risk_level := .high },
                            { id := "l2", risk_level := .low }]
                  risk_summary := .low }] }

/-- A plan used for the C4/C5 amended-claim witnesses: a six-step
low-risk batch (split into 5 + 1) and a two-step high-risk batch. -/
def planSplitDemo : ExecutionPlan :=
  { batches := [{ batch_number := 1
                  steps := [{ id := "a1" }, { id := "a2" }, { id := "a3" },
                            { id := "a4" }, { id := "a5" }, { id := "a6" }]
                  risk_summary := .low },
                { batch_number := 2
                  steps := [{ id := "b1", risk_level := .high },
                            { id := "b2", risk_level := .high }]
                  risk_summary := .high }] }

/-- Task list with both a dependency cycle (a ↔ b) and a missing
dependency (c → d): the C6 counterexample input. -/
def tasksCycleAndMissing : List Task :=
  [{ id := "a", dependencies := ["b"] },
   { id := "b", dependencies := ["a"] },
   { id := "c", dependencies := ["d"] }]

/-- Task list with just a cycle: C6 witness input. -/
def tasksCycle : List Task :=
  [{ id := "a", dependencies := ["b"] },
   { id := "b", dependencies := ["a"] }]

/-- A two-subscriber bus: the first handler raises, the second
succeeds. -/
def busTwoSubs : EventBus :=
  { subscribers := [fun _ => .error "boom", fun _ => .ok ()] }

/-- A plain workflow event for the C7 witness. -/
def eventDemo : WorkflowEvent :=
  { id := "evt-1", workflow_id := "wf-1", sequence := 1
    event_type := .stage_started }

/-- Bus with a connection manager, one subscriber, and trace retention
7: the C8 counterexample bus. -/
def busRetention7 : EventBus :=
  { subscribers := [fun _ => .ok ()]
    hasConnectionManager := true
    trace_retention_days := 7 }

/-- Bus with a connection manager and trace retention 0. -/
def busRetention0 : EventBus :=
  { subscribers := [fun _ => .ok ()]
    hasConnectionManager := true
    trace_retention_days := 0 }

/-- A tool-result stream event (suppressed unless the flag opts in). -/
def streamToolResultDemo : StreamEvent :=
  { id := "se-1", type := .claude_tool_result, workflow_id := "wf-1" }

/-- A thinking stream event (never suppressed). -/
def streamThinkingDemo : StreamEvent :=
  { id := "se-2", type := .claude_thinking, workflow_id := "wf-1" }

/-- The command step of the C3 failing input: primary `cmd1`, one
fallback `cmd2`, expected output pattern `PASS`. -/
def stepPatternDemo : PlanStep :=
  { id := "p1", action_type := .command, command := some "cmd1"
    fallback_commands := ["cmd2"], expected_output_pattern := some "PASS" }

/-- The environment of the C3 failing input: `cmd1` exits 0 printing
`FAIL`, every other command exits 0 printing `PASS`. -/
def envPatternDemo : DevEnv :=
  { run_shell_command := fun c => if c = "cmd1" then .ok "FAIL" else .ok "PASS"
    write_file := fun _ _ => .ok "written"
    pre_validate_step := fun _ _ => { ok := true } }

/-- The blocked batch result `envShellFails` produces on
`planOneBatch`. -/
def blockedResultDemo : BatchResult :=
  { batch_number := 1
    status := .blocked
    completed_steps := []
    blocker := some { step_id := "step-1"
                      step_description := ""
                      blocker_type := .command_failed
                      error_message := "boom"
                      attempted_actions := ["echo hi"] } }

/-- Two-batch plan for the C1 witness: s2 depends on s1, s3 on s2, s4
independent. -/
def planCascadeDemo : ExecutionPlan :=
  { batches := [{ batch_number := 1
                  steps := [{ id := "s1" }, { id := "s2", depends_on := ["s1"] }]
                  risk_summary := .low },
                { batch_number := 2
                  steps := [{ id := "s3", depends_on := ["s2"] }, { id := "s4" }]
                  risk_summary := .low }] }

end Amelia

namespace Amelia

/-- Spec-side restatement of `splitFoldStep`'s effect on one batch:
kept whole when within its limit, else replaced by its chunk batches
(used to characterise the fold). -/
def batchExpansion (b : ExecutionBatch) : List ExecutionBatch :=
  if b.steps.length ≤ RISK_LIMITS b.risk_summary then [b]
  else splitBatchChunks b

/-- Spec-side: a skip map is stable when one more cascade pass adds
nothing — every plan step not yet in the map has no dependency in the
map. -/
def cascadeStable (steps : List PlanStep) (a : SkipMap) : Prop :=
  ∀ s ∈ steps, mapMem a s.id = false →
    s.depends_on.find? (fun d => mapMem a d) = none

/-- Spec-side soundness invariant of the cascade: every key of the map
lies in the cascade closure. -/
def cascadeSound (steps : List PlanStep) (initP : String → Prop)
    (a : SkipMap) : Prop :=
  ∀ k, mapMem a k = true → SkippedClosure steps initP k

/-- The termination measure of the cascade loop: how many plan steps
are not yet in the map. -/
def cascadeMeasure (steps : List PlanStep) (a : SkipMap) : Nat :=
  (steps.filter (fun s => ! mapMem a s.id)).length

/-- Numeric rank of a DFS colour (monotone along the algorithm's
white → gray → black transitions). -/
def colorOrd : Color → Nat
  | .white => 0
  | .gray => 1
  | .black => 2

/-- The DFS termination measure: how many of the ids are still WHITE. -/
def whiteCount (ids : List String) (c : String → Color) : Nat :=
  (ids.filter (fun x => c x = Color.white)).length

/-- Spec-side dependency edge over an adjacency function: `u` has `v`
among its neighbours. -/
def nbrEdge (nbrs : String → List String) (u v : String) : Prop :=
  v ∈ nbrs u

/-- Spec-side: some node lies on a (nonempty) directed cycle of the
adjacency. -/
def nbrCycle (nbrs : String → List String) : Prop :=
  ∃ x, Relation.TransGen (nbrEdge nbrs) x x

/-- The GRAY stack of the running DFS, top first: each entry is a
neighbour of the entry below it. -/
def grayChain (nbrs : String → List String) : List String → Prop
  | [] => True
  | [_] => True
  | a :: b :: t => a ∈ nbrs b ∧ grayChain nbrs (b :: t)

/-- A node about to be visited hangs off the top of the stack (or the
stack is empty, for top-level visits). -/
def headLink (nbrs : String → List String) (node : String) :
    List String → Prop
  | [] => True
  | h :: _ => node ∈ nbrs h

/-- The colouring/stack coupling of the running DFS: the GRAY nodes are
exactly the stack, and the stack is a chain. -/
def stackOk (nbrs : String → List String) (c : String → Color)
    (stack : List String) : Prop :=
  (∀ x, c x = Color.gray ↔ x ∈ stack) ∧ grayChain nbrs stack

/-- The certificate carried through the DFS for acyclicity of the BLACK
region: some ranking strictly decreases along edges out of BLACK nodes,
which stay within the BLACK region. -/
def rankInv (nbrs : String → List String) (c : String → Color) : Prop :=
  ∃ rk : String → Nat, ∀ u, c u = Color.black →
    ∀ v ∈ nbrs u, c v = Color.black ∧ rk v < rk u

end Amelia

namespace Amelia

/-! ## Theorems

One theorem (plus witness or counterexample) per claim, with shared
helper lemmas. -/

/-- Helper: the subscriber loop of `emit` is a map over the
subscribers. -/
theorem emitLoop_eq_map (l : List Handler) (e : WorkflowEvent) :
    emitLoop l e = l.map (fun h => runSubscriber h e) := by
  induction l with
  | nil => rfl
  | cons h rest ih => simp [emitLoop, ih]

/-- C7: `EventBus.emit` invokes every registered subscriber on the
event, in registration order (the i-th outcome is the i-th
subscriber's), a raising subscriber's exception is caught and logged in
place without stopping the iteration, and `emit` returns an outcome for
every subscriber rather than propagating any exception. -/
theorem C7_emit_isolates_failures :
    ∀ (bus : EventBus) (e : WorkflowEvent),
      ((bus.emit e).outcomes.length = bus.subscribers.length) ∧
      (∀ i : Nat, (bus.emit e).outcomes.get? i =
        (bus.subscribers.get? i).map (fun h => runSubscriber h e)) ∧
      (∀ (i : Nat) (h : Handler) (msg : String),
        bus.subscribers.get? i = some h → h e = Except.error msg →
        (bus.emit e).outcomes.get? i = some (CallOutcome.loggedError msg)) := by
  intro bus e
  have h2 : ∀ i : Nat, (bus.emit e).outcomes.get? i =
      (bus.subscribers.get? i).map (fun h => runSubscriber h e) := by
    intro i
    simp [EventBus.emit, emitLoop_eq_map, List.get?_map]
  refine ⟨by simp [EventBus.emit, emitLoop_eq_map], h2, ?_⟩
  intro i h msg hget hraise
  rw [h2 i, hget]
  simp [runSubscriber, hraise]

/-- C7 witness: on a concrete bus whose first subscriber raises and
whose second succeeds, `emit` still produces one outcome per
subscriber. -/
theorem C7_emit_isolates_failures_witness :
    (busTwoSubs.emit eventDemo).outcomes.length =
      busTwoSubs.subscribers.length :=
  (C7_emit_isolates_failures busTwoSubs eventDemo).1

/-- C10: constructing a `Profile` named "work" (case-insensitively)
with an `api`-prefixed driver fails with the enterprise-compliance
message; every other combination is accepted unchanged. -/
theorem C10_work_profile_validation :
    ∀ p : Profile,
      (pyLower p.name = "work" ∧ pyStartsWith p.driver.str "api" →
        p.validate_work_profile_constraints =
          .error (workProfileErrorMsg p.driver) ∧
        containsSub (workProfileErrorMsg p.driver) "enterprise compliance" = true) ∧
      (¬ (pyLower p.name = "work" ∧ pyStartsWith p.driver.str "api") →
        p.validate_work_profile_constraints = .ok p) := by
  intro p
  constructor
  · intro h
    refine ⟨?_, ?_⟩
    · unfold Profile.validate_work_profile_constraints
      rw [if_pos h]
    · cases p.driver <;> decide
  · intro h
    unfold Profile.validate_work_profile_constraints
    rw [if_neg h]

/-- C10 witness: the profile named "Work" with the plain `api` driver
is rejected with the enterprise-compliance message. -/
theorem C10_work_profile_validation_witness :
    ({ name := "Work", driver := .api } : Profile).validate_work_profile_constraints =
      .error (workProfileErrorMsg DriverType.api) :=
  ((C10_work_profile_validation { name := "Work", driver := .api }).1
    ⟨by decide, by decide⟩).1

/-- C2 (the claim is the intended behaviour; the code diverges): on a
one-batch plan positioned at its final batch, with every step
completing successfully, `Developer.run` returns
`developer_status = batch_complete`, not `all_done`; `all_done` only
appears on a later call once `current_batch_index` has moved past the
end. -/
theorem C2_final_batch_sets_batch_complete :
    stateOneBatch.current_batch_index + 1 = planOneBatch.batches.length ∧
    Developer.run envOk stateOneBatch =
      .ok { batch_results := some [{ batch_number := 1
                                     status := .complete
                                     completed_steps := [stepResultOneBatch] }]
            current_batch_index := some 1
            developer_status := some .batch_complete
            blocker_resolution := some none } ∧
    Developer.run envOk { stateOneBatch with current_batch_index := 1 } =
      .ok { developer_status := some .all_done } := by
  refine ⟨rfl, rfl, rfl⟩

/-- C3 (the claim matches `validate_command_result` and the spec, but
the executor never consults the pattern): on a command step whose
primary exits 0 with output failing the `expected_output_pattern`, and
whose fallback would match, `_execute_step_with_fallbacks` returns the
primary's result as completed — no fallback is tried and the step does
not fail, although `validate_command_result` rejects that output and
accepts the fallback's. -/
theorem C3_expected_output_pattern_ignored :
    execute_step_with_fallbacks envPatternDemo stepPatternDemo {} =
      { step_id := "p1", status := .completed, output := some "FAIL"
        error := none, executed_command := some "cmd1" } ∧
    validate_command_result reSearchLit 0 "FAIL" stepPatternDemo = false ∧
    validate_command_result reSearchLit 0 "PASS" stepPatternDemo = true ∧
    envPatternDemo.run_shell_command "cmd2" = .ok "PASS" := by
  refine ⟨by decide, by decide, by decide, rfl⟩

/-- C9: whenever the current batch run comes back blocked,
`Developer.run` returns a delta holding exactly `current_blocker`,
`developer_status = blocked` and `batch_results`; applying it leaves
every other state field unchanged — in particular
`current_batch_index` is not advanced and `blocker_resolution` is not
cleared. -/
theorem C9_blocked_delta_frame :
    ∀ (env : DevEnv) (state : ExecutionState) (plan : ExecutionPlan)
      (r : BatchResult),
      state.execution_plan = some plan →
      state.current_batch_index < plan.batches.length →
      Developer.runBatchResult env state plan = .ok r →
      r.status = BatchStatus.blocked →
      Developer.run env state =
        .ok { current_blocker := some r.blocker
              developer_status := some DeveloperStatus.blocked
              batch_results := some [r] } ∧
      applyRunDelta state
          { current_blocker := some r.blocker
            developer_status := some DeveloperStatus.blocked
            batch_results := some [r] } =
        { state with
          developer_status := DeveloperStatus.blocked
          current_blocker := r.blocker
          batch_results := state.batch_results ++ [r] } := by
  intro env state plan r hplan hidx hres hblocked
  constructor
  · unfold Developer.run
    rw [hplan]
    simp only []
    rw [if_neg (not_le.mpr hidx), hres]
    simp only []
    rw [if_pos hblocked]
  · unfold applyRunDelta
    rfl

/-- C9 witness: a concrete shell failure produces a blocked result and
the three-field delta. -/
theorem C9_blocked_delta_frame_witness :
    Developer.run envShellFails stateOneBatch =
      .ok { current_blocker := some blockedResultDemo.blocker
            developer_status := some DeveloperStatus.blocked
            batch_results := some [blockedResultDemo] } :=
  (C9_blocked_delta_frame envShellFails stateOneBatch planOneBatch
    blockedResultDemo rfl (by decide) rfl rfl).1

end Amelia

namespace Amelia

/-- C8 counterexample: with trace retention 7 (positive) and the
tool-result flag off, a `claude_tool_result` stream event is dropped
entirely — it is neither converted and emitted to subscribers nor
handed to the streaming broadcast — so the claim as stated fails. -/
theorem C8_emit_stream_counterexample : ¬ C8StreamProp := by
  intro h
  obtain ⟨we, hwe, -⟩ :=
    (h busRetention7 false streamToolResultDemo rfl).2 (by decide)
  have h3 : ([] : List WorkflowEvent) = [we] := hwe
  exact List.noConfusion h3

/-- C8 amended: except for tool-result events with the
`stream_tool_results` flag off (which are dropped entirely),
`emit_stream` with trace retention 0 forwards nothing to subscribers
yet still hands the stream event to the streaming broadcast when a
connection manager is set; with positive retention it converts the
event to a `WorkflowEvent` with the same workflow id and the workflow's
next sequence number (previous counter + 1) and emits it to the
subscribers. -/
theorem C8_emit_stream_amended :
    ∀ (bus : EventBus) (flag : Bool) (e : StreamEvent),
      (e.type = StreamEventType.claude_tool_result → flag = true) →
      ((bus.trace_retention_days = 0 →
          (bus.emit_stream flag e).2.emitted = [] ∧
          (bus.emit_stream flag e).2.outcomes = [] ∧
          (bus.emit_stream flag e).2.stream_broadcasts =
            (if bus.hasConnectionManager then [e] else [])) ∧
       (bus.trace_retention_days > 0 →
          ∃ we, (bus.emit_stream flag e).2.emitted = [we] ∧
            we.workflow_id = e.workflow_id ∧
            we.sequence =
              (((bus.sequence_counter.find? (fun p => p.1 = e.workflow_id)).map
                Prod.snd).getD 0) + 1 ∧
            (bus.emit_stream flag e).2.outcomes =
              emitLoop bus.subscribers we)) := by
  intro bus flag e hflag
  have hsup : ¬ (e.type = StreamEventType.claude_tool_result ∧ flag = false) := by
    rintro ⟨h1, h2⟩
    rw [hflag h1] at h2
    exact Bool.noConfusion h2
  constructor
  · intro h0
    have hneg : ¬ bus.trace_retention_days > 0 := by omega
    simp [EventBus.emit_stream, hsup, hneg]
  · intro hpos
    refine ⟨(bus.convert_to_workflow_event e).1, ?_, ?_, ?_, ?_⟩ <;>
      simp [EventBus.emit_stream, hsup, hpos, EventBus.convert_to_workflow_event,
        EventBus.get_next_sequence, EventBus.emit]

/-- C8 witness: a thinking event on a retention-0 bus with a connection
manager reaches no subscriber but is broadcast to stream sockets. -/
theorem C8_emit_stream_amended_witness :
    (busRetention0.emit_stream false streamThinkingDemo).2.emitted = [] ∧
    (busRetention0.emit_stream false streamThinkingDemo).2.outcomes = [] ∧
    (busRetention0.emit_stream false streamThinkingDemo).2.stream_broadcasts =
      (if busRetention0.hasConnectionManager then [streamThinkingDemo] else []) :=
  (C8_emit_stream_amended busRetention0 false streamThinkingDemo (by decide)).1 rfl

end Amelia

namespace Amelia

/-- Helper: every risk limit is positive. -/
theorem RISK_LIMITS_pos (r : RiskLevel) : 0 < RISK_LIMITS r := by
  cases r <;> decide

/-- Helper: risk limits are antitone in the risk order. -/
theorem RISK_LIMITS_antitone {a b : RiskLevel} (h : RiskLevel.le a b) :
    RISK_LIMITS b ≤ RISK_LIMITS a := by
  cases a <;> cases b <;> revert h <;> decide

/-- Helper: only `high` is at least `high`. -/
theorem riskLe_high {r : RiskLevel} (h : RiskLevel.le RiskLevel.high r) :
    r = RiskLevel.high := by
  cases r <;> revert h <;> decide

/-- Helper: `high` bounds every risk. -/
theorem riskLe_any_high (r : RiskLevel) : RiskLevel.le r RiskLevel.high := by
  cases r <;> decide

/-- Helper: `low` is below every risk. -/
theorem riskLe_low_any (r : RiskLevel) : RiskLevel.le RiskLevel.low r := by
  cases r <;> decide

/-- Helper: chunk worker flattens back to the list when the fuel covers
its length. -/
theorem chunksOfAux_flatten (n : Nat) (hn : n ≠ 0) :
    ∀ (fuel : Nat) (l : List PlanStep), l.length ≤ fuel →
      (chunksOfAux n fuel l).flatten = l := by
  intro fuel
  induction fuel with
  | zero =>
      intro l hl
      have hnil : l = [] := List.eq_nil_of_length_eq_zero (Nat.le_zero.mp hl)
      subst hnil
      rfl
  | succ fuel ih =>
      intro l hl
      cases l with
      | nil => rfl
      | cons a t =>
          rw [chunksOfAux, List.flatten_cons]
          have hd : ((a :: t).drop n).length ≤ fuel := by
            rw [List.length_drop, List.length_cons]
            simp only [List.length_cons] at hl
            omega
          rw [ih _ hd, List.take_append_drop]

/-- Helper: chunks concatenate back to the original list. -/
theorem chunksOf_flatten (n : Nat) (hn : n ≠ 0) (l : List PlanStep) :
    (chunksOf n l).flatten = l := by
  unfold chunksOf
  rw [if_neg hn]
  exact chunksOfAux_flatten n hn l.length l (le_refl _)

/-- Helper: each worker chunk has at most `n` elements. -/
theorem chunksOfAux_length_le (n : Nat) :
    ∀ (fuel : Nat) (l : List PlanStep), ∀ c ∈ chunksOfAux n fuel l,
      c.length ≤ n := by
  intro fuel
  induction fuel with
  | zero =>
      intro l c hc
      simp [chunksOfAux] at hc
  | succ fuel ih =>
      intro l c hc
      cases l with
      | nil => simp [chunksOfAux] at hc
      | cons a t =>
          rw [chunksOfAux] at hc
          rcases List.mem_cons.mp hc with h | h
          · subst h
            simpa using Nat.min_le_left n _
          · exact ih _ c h

/-- Helper: each chunk has at most `n` elements. -/
theorem chunksOf_length_le (n : Nat) (l : List PlanStep) :
    ∀ c ∈ chunksOf n l, c.length ≤ n := by
  unfold chunksOf
  by_cases hn : n = 0
  · rw [if_pos hn]
    intro c hc
    simp at hc
  · rw [if_neg hn]
    exact chunksOfAux_length_le n l.length l

/-- Helper: a chunk's members come from the original list. -/
theorem chunksOf_subset (n : Nat) (hn : n ≠ 0) (l : List PlanStep)
    (c : List PlanStep) (hc : c ∈ chunksOf n l) : ∀ s ∈ c, s ∈ l := by
  intro s hs
  have hfl := chunksOf_flatten n hn l
  rw [← hfl]
  exact List.mem_flatten.mpr ⟨c, hc, hs⟩

/-- Helper: the chunk risk dominates each member's risk. -/
theorem chunkRisk_dominates (chunk : List PlanStep) :
    ∀ s ∈ chunk, RiskLevel.le s.risk_level (chunkRisk chunk) := by
  intro s hs
  unfold chunkRisk
  by_cases hh : chunk.any (fun s => s.risk_level = RiskLevel.high)
  · rw [if_pos hh]
    exact riskLe_any_high _
  · rw [if_neg hh]
    simp only [List.any_eq_true, decide_eq_true_eq, not_exists, not_and] at hh
    by_cases hm : chunk.any (fun s => s.risk_level = RiskLevel.medium)
    · rw [if_pos hm]
      cases hr : s.risk_level with
      | low => decide
      | medium => decide
      | high => exact absurd hr (by simpa using hh s hs)
    · rw [if_neg hm]
      simp only [List.any_eq_true, decide_eq_true_eq, not_exists, not_and] at hm
      cases hr : s.risk_level with
      | low => decide
      | medium => exact absurd hr (by simpa using hm s hs)
      | high => exact absurd hr (by simpa using hh s hs)

/-- Helper: the chunk risk is at most any upper bound of the members'
risks. -/
theorem chunkRisk_le (chunk : List PlanStep) (r : RiskLevel)
    (h : ∀ s ∈ chunk, RiskLevel.le s.risk_level r) :
    RiskLevel.le (chunkRisk chunk) r := by
  unfold chunkRisk
  by_cases hh : chunk.any (fun s => s.risk_level = RiskLevel.high)
  · rw [if_pos hh]
    obtain ⟨s, hs, heq⟩ := List.any_eq_true.mp hh
    have heq2 : s.risk_level = RiskLevel.high := by simpa using heq
    have h2 := h s hs
    rw [heq2] at h2
    exact h2
  · rw [if_neg hh]
    by_cases hm : chunk.any (fun s => s.risk_level = RiskLevel.medium)
    · rw [if_pos hm]
      obtain ⟨s, hs, heq⟩ := List.any_eq_true.mp hm
      have heq2 : s.risk_level = RiskLevel.medium := by simpa using heq
      have h2 := h s hs
      rw [heq2] at h2
      exact h2
    · rw [if_neg hm]
      exact riskLe_low_any r

/-- Helper: the fold of `validate_and_split_batches` appends each
batch's expansion in order. -/
theorem splitFold_eq (l : List ExecutionBatch) :
    ∀ (acc : List ExecutionBatch) (w : List String),
      (l.foldl splitFoldStep (acc, w)).1 = acc ++ l.flatMap batchExpansion := by
  induction l with
  | nil => intro acc w; simp
  | cons b rest ih =>
      intro acc w
      rw [List.foldl_cons]
      by_cases hb : b.steps.length ≤ RISK_LIMITS b.risk_summary
      · have hstep : splitFoldStep (acc, w) b = (acc ++ [b], w) := by
          unfold splitFoldStep
          rw [if_pos hb]
        rw [hstep, ih]
        simp [batchExpansion, hb]
      · have hstep : splitFoldStep (acc, w) b =
            (acc ++ splitBatchChunks b, w ++ [splitWarning b (RISK_LIMITS b.risk_summary)]) := by
          unfold splitFoldStep
          rw [if_neg hb]
        rw [hstep, ih]
        simp [batchExpansion, hb]

/-- Helper: membership after renumbering reaches a batch with the same
steps and risk summary. -/
theorem renumber_mem (l : List ExecutionBatch) :
    ∀ (n : Nat) (b' : ExecutionBatch),
      b' ∈ (l.enumFrom n).map
        (fun p => ({ p.2 with batch_number := p.1 + 1 } : ExecutionBatch)) →
      ∃ b'' ∈ l, b'.steps = b''.steps ∧ b'.risk_summary = b''.risk_summary := by
  induction l with
  | nil => intro n b' h; simp [List.enumFrom] at h
  | cons b rest ih =>
      intro n b' h
      rcases List.mem_cons.mp h with h1 | h1
      · exact ⟨b, List.mem_cons_self _ _, by rw [h1], by rw [h1]⟩
      · obtain ⟨b'', hb'', h2, h3⟩ := ih (n + 1) b' h1
        exact ⟨b'', List.mem_cons_of_mem _ hb'', h2, h3⟩

/-- Helper: renumbering produces the consecutive numbers n+1, n+2, …. -/
theorem renumber_numbers (l : List ExecutionBatch) :
    ∀ n : Nat,
      ((l.enumFrom n).map
        (fun p => ({ p.2 with batch_number := p.1 + 1 } : ExecutionBatch))).map
          ExecutionBatch.batch_number = List.range' (n + 1) l.length := by
  induction l with
  | nil => intro n; rfl
  | cons b rest ih =>
      intro n
      rw [List.length_cons, List.range'_succ _ _ 1]
      simpa using ih (n + 1)

/-- Helper: renumbering keeps the step lists. -/
theorem renumber_steps (l : List ExecutionBatch) :
    ∀ n : Nat,
      ((l.enumFrom n).map
        (fun p => ({ p.2 with batch_number := p.1 + 1 } : ExecutionBatch))).map
          ExecutionBatch.steps = l.map ExecutionBatch.steps := by
  induction l with
  | nil => intro n; rfl
  | cons b rest ih =>
      intro n
      simpa using ih (n + 1)

/-- Helper: the steps of a batch's expansion flatten back to the
batch's steps. -/
theorem batchExpansion_steps (b : ExecutionBatch) :
    ((batchExpansion b).map ExecutionBatch.steps).flatten = b.steps := by
  unfold batchExpansion
  by_cases hb : b.steps.length ≤ RISK_LIMITS b.risk_summary
  · rw [if_pos hb]
    simp
  · rw [if_neg hb]
    unfold splitBatchChunks
    rw [List.map_map]
    have hmap : ∀ cs : List (List PlanStep),
        cs.map (ExecutionBatch.steps ∘ fun chunk =>
          ({ batch_number := 0, steps := chunk, risk_summary := chunkRisk chunk,
             description := b.description } : ExecutionBatch)) = cs := by
      intro cs
      induction cs with
      | nil => rfl
      | cons c t ih =>
          simp only [List.map_cons, ih]
          rfl
    rw [hmap]
    exact chunksOf_flatten _ (RISK_LIMITS_pos _).ne' b.steps

/-- Helper: every batch of the validated plan stems from an input batch
`b`: either kept whole (within limit, same steps and risk) or a chunk
of an oversized `b` with the chunk's recomputed risk. -/
theorem validated_mem (plan : ExecutionPlan) (b' : ExecutionBatch)
    (hb' : b' ∈ (validate_and_split_batches plan).1.batches) :
    ∃ b ∈ plan.batches,
      (b.steps.length ≤ RISK_LIMITS b.risk_summary ∧ b'.steps = b.steps ∧
        b'.risk_summary = b.risk_summary) ∨
      (¬ b.steps.length ≤ RISK_LIMITS b.risk_summary ∧
        b'.steps ∈ chunksOf (RISK_LIMITS b.risk_summary) b.steps ∧
        b'.risk_summary = chunkRisk b'.steps) := by
  unfold validate_and_split_batches at hb'
  simp only [List.enum] at hb'
  obtain ⟨b'', hb'', h2, h3⟩ := renumber_mem _ 0 b' (by
    rw [splitFold_eq plan.batches [] []] at hb'
    simpa using hb')
  rw [List.mem_flatMap] at hb''
  obtain ⟨b, hb, hmem⟩ := hb''
  unfold batchExpansion at hmem
  by_cases hk : b.steps.length ≤ RISK_LIMITS b.risk_summary
  · rw [if_pos hk] at hmem
    have heq : b'' = b := List.mem_singleton.mp hmem
    rw [heq] at h2 h3
    exact ⟨b, hb, Or.inl ⟨hk, h2, h3⟩⟩
  · rw [if_neg hk] at hmem
    unfold splitBatchChunks at hmem
    rw [List.mem_map] at hmem
    obtain ⟨chunk, hchunk, rfl⟩ := hmem
    refine ⟨b, hb, Or.inr ⟨hk, ?_, ?_⟩⟩
    · rw [h2]; exact hchunk
    · rw [h3, h2]

end Amelia

namespace Amelia

/-- Helper: a list of length at most one containing `s` is `[s]`. -/
theorem len_le_one_mem_eq {l : List PlanStep} {s : PlanStep}
    (h : l.length ≤ 1) (hs : s ∈ l) : l = [s] := by
  match l, hs with
  | [a], hs =>
      have : s = a := by simpa using hs
      rw [this]
  | a :: b :: t, _ => simp at h

/-- Helper: expanding every batch preserves the concatenation of
steps. -/
theorem flatMap_expansion_steps (l : List ExecutionBatch) :
    ((l.flatMap batchExpansion).map ExecutionBatch.steps).flatten =
      (l.map ExecutionBatch.steps).flatten := by
  induction l with
  | nil => rfl
  | cons b t ih =>
      rw [List.flatMap_cons, List.map_append, List.flatten_append, ih,
        List.map_cons, List.flatten_cons, batchExpansion_steps]

/-- C4 counterexample: on a medium-risk batch of four steps whose first
step is high-risk, the validator emits a three-step batch whose
recomputed risk summary is high — breaking the high ≤ 1 size limit —
so the claim as stated fails. -/
theorem C4_size_limits_counterexample : ¬ C4SizeLimitProp planC4demo := by
  intro h
  have h2 := h.1 { batch_number := 1
                   steps := [{ id := "h1", risk_level := .high },
                             { id := "m2", risk_level := .medium },
                             { id := "m3", risk_level := .medium }]
                   risk_summary := .high } (by decide)
  revert h2
  decide

/-- C4 amended: when every input batch's risk summary bounds its steps'
risk levels, the validated plan obeys the per-risk size limits
(low ≤ 5, medium ≤ 3, high ≤ 1), splitting preserves the concatenated
step order, and batches are renumbered 1, 2, …. -/
theorem C4_size_limits_amended :
    ∀ plan : ExecutionPlan, riskDominated plan → C4SizeLimitProp plan := by
  intro plan hdom
  refine ⟨?_, ?_, ?_⟩
  · intro b' hb'
    obtain ⟨b, hb, hcase⟩ := validated_mem plan b' hb'
    rcases hcase with ⟨hk, h2, h3⟩ | ⟨hk, hchunk, h3⟩
    · rw [h2, h3]
      exact hk
    · have hsub := chunksOf_subset _ (RISK_LIMITS_pos b.risk_summary).ne'
        b.steps b'.steps hchunk
      have hle : RiskLevel.le (chunkRisk b'.steps) b.risk_summary :=
        chunkRisk_le _ _ (fun s hs => hdom b hb s (hsub s hs))
      have h4 : b'.steps.length ≤ RISK_LIMITS b.risk_summary :=
        chunksOf_length_le _ b.steps _ hchunk
      calc b'.steps.length ≤ RISK_LIMITS b.risk_summary := h4
        _ ≤ RISK_LIMITS (chunkRisk b'.steps) := RISK_LIMITS_antitone hle
        _ = RISK_LIMITS b'.risk_summary := by rw [← h3]
  · unfold validate_and_split_batches
    simp only [List.enum]
    rw [renumber_steps, splitFold_eq plan.batches [] [], List.nil_append,
      flatMap_expansion_steps]
  · unfold validate_and_split_batches
    simp only [List.enum]
    rw [renumber_numbers]
    simp [splitFold_eq plan.batches [] []]

/-- C4 amended witness: a six-step low batch splits into 5 + 1 and a
two-step high batch into 1 + 1, within limits, order preserved,
renumbered from 1. -/
theorem C4_size_limits_amended_witness :
    riskDominated planSplitDemo ∧ C4SizeLimitProp planSplitDemo :=
  ⟨by unfold riskDominated; decide,
   C4_size_limits_amended planSplitDemo (by unfold riskDominated; decide)⟩

/-- C5 counterexample: a batch whose recorded risk summary is low but
which contains a high-risk step is kept whole (it is within the low
limit), so the high-risk step is not isolated and the claim as stated
fails. -/
theorem C5_high_risk_isolation_counterexample :
    ¬ C5IsolationProp planC5demo := by
  intro h
  have h2 := h { batch_number := 1
                 steps := [{ id := "h1", risk_level := .high },
                           { id := "l2" }]
                 risk_summary := .low } (by decide)
    { id := "h1", risk_level := .high } (by decide) rfl
  revert h2
  decide

/-- C5 amended: when every input batch's risk summary bounds its steps'
risk levels, every high-risk step of the validated plan sits in a batch
of its own. -/
theorem C5_high_risk_isolation_amended :
    ∀ plan : ExecutionPlan, riskDominated plan → C5IsolationProp plan := by
  intro plan hdom b' hb' s hs hhigh
  obtain ⟨b, hb, hcase⟩ := validated_mem plan b' hb'
  rcases hcase with ⟨hk, h2, h3⟩ | ⟨hk, hchunk, h3⟩
  · have hshigh : RiskLevel.le RiskLevel.high b.risk_summary := by
      have h5 := hdom b hb s (by rw [← h2]; exact hs)
      rw [hhigh] at h5
      exact h5
    have hbr : b.risk_summary = RiskLevel.high := riskLe_high hshigh
    have hlen : b'.steps.length ≤ 1 := by
      rw [h2]
      rw [hbr] at hk
      exact hk
    exact len_le_one_mem_eq hlen hs
  · have hsub := chunksOf_subset _ (RISK_LIMITS_pos b.risk_summary).ne'
      b.steps b'.steps hchunk
    have hbhigh : b.risk_summary = RiskLevel.high := by
      refine riskLe_high ?_
      have h5 := hdom b hb s (hsub s hs)
      rw [hhigh] at h5
      exact h5
    have hlen : b'.steps.length ≤ 1 := by
      have h6 := chunksOf_length_le _ b.steps _ hchunk
      rw [hbhigh] at h6
      exact h6
    exact len_le_one_mem_eq hlen hs

/-- C5 amended witness: in the validated `planSplitDemo` every
high-risk step is isolated. -/
theorem C5_high_risk_isolation_amended_witness :
    riskDominated planSplitDemo ∧ C5IsolationProp planSplitDemo :=
  ⟨by unfold riskDominated; decide,
   C5_high_risk_isolation_amended planSplitDemo (by unfold riskDominated; decide)⟩

end Amelia

namespace Amelia

/-- Helper: membership in an appended skip map. -/
theorem mapMem_append (m1 m2 : SkipMap) (k : String) :
    mapMem (m1 ++ m2) k = (mapMem m1 k || mapMem m2 k) := by
  simp [mapMem, List.any_append]

/-- Helper: membership in a singleton skip map. -/
theorem mapMem_singleton (a v : String) (k : String) :
    mapMem [(a, v)] k = true ↔ a = k := by
  simp [mapMem]

/-- Helper: once the cascade pass has found a new skip, the flag stays
raised. -/
theorem cascadeFold_flag_absorb (l : List PlanStep) :
    ∀ (a r : SkipMap), (List.foldl cascadeStep (a, r, true) l).2.2 = true := by
  induction l with
  | nil => intro a r; rfl
  | cons s t ih =>
      intro a r
      rw [List.foldl_cons]
      by_cases hmem : mapMem a s.id = true
      · simpa [cascadeStep, hmem] using ih a r
      · rw [Bool.not_eq_true] at hmem
        cases hfind : s.depends_on.find? (fun d => mapMem a d) with
        | none => simpa [cascadeStep, hmem, hfind] using ih a r
        | some d => simpa [cascadeStep, hmem, hfind] using ih _ _

/-- Helper: cascade folding never drops keys from the accumulated
map. -/
theorem cascadeFold_mono (l : List PlanStep) :
    ∀ (a r : SkipMap) (f : Bool) (k : String), mapMem a k = true →
      mapMem (List.foldl cascadeStep (a, r, f) l).1 k = true := by
  induction l with
  | nil => intro a r f k hk; exact hk
  | cons s t ih =>
      intro a r f k hk
      rw [List.foldl_cons]
      by_cases hmem : mapMem a s.id = true
      · simpa [cascadeStep, hmem] using ih a r f k hk
      · rw [Bool.not_eq_true] at hmem
        cases hfind : s.depends_on.find? (fun d => mapMem a d) with
        | none => simpa [cascadeStep, hmem, hfind] using ih a r f k hk
        | some d =>
            have hk2 : mapMem (a ++ [(s.id, cascadeReason d)]) k = true := by
              rw [mapMem_append, hk, Bool.true_or]
            simpa [cascadeStep, hmem, hfind] using ih _ _ _ k hk2

/-- Helper: the accumulated map always equals the initial map followed
by the accumulated delta. -/
theorem cascadeFold_rel (l : List PlanStep) :
    ∀ (init a r : SkipMap) (f : Bool), a = init ++ r →
      (List.foldl cascadeStep (a, r, f) l).1 =
        init ++ (List.foldl cascadeStep (a, r, f) l).2.1 := by
  induction l with
  | nil => intro init a r f h; exact h
  | cons s t ih =>
      intro init a r f h
      rw [List.foldl_cons]
      by_cases hmem : mapMem a s.id = true
      · simpa [cascadeStep, hmem] using ih init a r f h
      · rw [Bool.not_eq_true] at hmem
        cases hfind : s.depends_on.find? (fun d => mapMem a d) with
        | none => simpa [cascadeStep, hmem, hfind] using ih init a r f h
        | some d =>
            have h2 : a ++ [(s.id, cascadeReason d)] =
                init ++ (r ++ [(s.id, cascadeReason d)]) := by
              rw [h, List.append_assoc]
            simpa [cascadeStep, hmem, hfind] using ih init _ _ true h2

/-- Helper: cascade folding preserves soundness with respect to the
cascade closure. -/
theorem cascadeFold_sound (S : List PlanStep) (initP : String → Prop)
    (l : List PlanStep) :
    ∀ (a r : SkipMap) (f : Bool), (∀ s ∈ l, s ∈ S) →
      cascadeSound S initP a →
      cascadeSound S initP (List.foldl cascadeStep (a, r, f) l).1 := by
  induction l with
  | nil => intro a r f _ ha; exact ha
  | cons s t ih =>
      intro a r f hsub ha
      have hsub2 : ∀ x ∈ t, x ∈ S := fun x hx => hsub x (List.mem_cons_of_mem _ hx)
      rw [List.foldl_cons]
      by_cases hmem : mapMem a s.id = true
      · simpa [cascadeStep, hmem] using ih a r f hsub2 ha
      · rw [Bool.not_eq_true] at hmem
        cases hfind : s.depends_on.find? (fun d => mapMem a d) with
        | none => simpa [cascadeStep, hmem, hfind] using ih a r f hsub2 ha
        | some d =>
            have hdmem : d ∈ s.depends_on := List.mem_of_find?_eq_some hfind
            have hdval : mapMem a d = true := by
              have := List.find?_some hfind
              simpa using this
            have ha2 : cascadeSound S initP (a ++ [(s.id, cascadeReason d)]) := by
              intro k hk
              rw [mapMem_append, Bool.or_eq_true] at hk
              rcases hk with hk | hk
              · exact ha k hk
              · have heq : s.id = k := (mapMem_singleton _ _ _).mp hk
                rw [← heq]
                exact SkippedClosure.cascade s d (hsub s (List.mem_cons_self _ _))
                  hdmem (ha d hdval)
            simpa [cascadeStep, hmem, hfind] using ih _ _ true hsub2 ha2

/-- Helper: a cascade pass that raises no flag leaves the state
untouched and witnesses stability on the traversed steps. -/
theorem cascadeFold_flag_false (l : List PlanStep) :
    ∀ (a r : SkipMap),
      (List.foldl cascadeStep (a, r, false) l).2.2 = false →
      (List.foldl cascadeStep (a, r, false) l).1 = a ∧
      (List.foldl cascadeStep (a, r, false) l).2.1 = r ∧
      ∀ s ∈ l, mapMem a s.id = false →
        s.depends_on.find? (fun d => mapMem a d) = none := by
  induction l with
  | nil => intro a r _; exact ⟨rfl, rfl, by intro s hs; cases hs⟩
  | cons s t ih =>
      intro a r hflag
      rw [List.foldl_cons] at hflag ⊢
      by_cases hmem : mapMem a s.id = true
      · have hred : cascadeStep (a, r, false) s = (a, r, false) := by
          simp [cascadeStep, hmem]
        rw [hred] at hflag ⊢
        obtain ⟨h1, h2, h3⟩ := ih a r hflag
        refine ⟨h1, h2, ?_⟩
        intro x hx hxf
        rcases List.mem_cons.mp hx with h | h
        · rw [h] at hxf; rw [hxf] at hmem; cases hmem
        · exact h3 x h hxf
      · rw [Bool.not_eq_true] at hmem
        cases hfind : s.depends_on.find? (fun d => mapMem a d) with
        | none =>
            have hred : cascadeStep (a, r, false) s = (a, r, false) := by
              simp [cascadeStep, hmem, hfind]
            rw [hred] at hflag ⊢
            obtain ⟨h1, h2, h3⟩ := ih a r hflag
            refine ⟨h1, h2, ?_⟩
            intro x hx hxf
            rcases List.mem_cons.mp hx with h | h
            · rw [h]; exact hfind
            · exact h3 x h hxf
        | some d =>
            have hred : cascadeStep (a, r, false) s =
                (a ++ [(s.id, cascadeReason d)], r ++ [(s.id, cascadeReason d)],
                  true) := by
              simp [cascadeStep, hmem, hfind]
            rw [hred] at hflag
            rw [cascadeFold_flag_absorb] at hflag
            cases hflag

/-- Helper: a cascade pass that raises the flag has added some plan
step's id that was not in the map before. -/
theorem cascadeFold_growth (l : List PlanStep) :
    ∀ (a r : SkipMap),
      (List.foldl cascadeStep (a, r, false) l).2.2 = true →
      ∃ s ∈ l, mapMem a s.id = false ∧
        mapMem (List.foldl cascadeStep (a, r, false) l).1 s.id = true := by
  induction l with
  | nil => intro a r hflag; cases hflag
  | cons s t ih =>
      intro a r hflag
      rw [List.foldl_cons] at hflag ⊢
      by_cases hmem : mapMem a s.id = true
      · have hred : cascadeStep (a, r, false) s = (a, r, false) := by
          simp [cascadeStep, hmem]
        rw [hred] at hflag ⊢
        obtain ⟨x, hx, h1, h2⟩ := ih a r hflag
        exact ⟨x, List.mem_cons_of_mem _ hx, h1, h2⟩
      · rw [Bool.not_eq_true] at hmem
        cases hfind : s.depends_on.find? (fun d => mapMem a d) with
        | none =>
            have hred : cascadeStep (a, r, false) s = (a, r, false) := by
              simp [cascadeStep, hmem, hfind]
            rw [hred] at hflag ⊢
            obtain ⟨x, hx, h1, h2⟩ := ih a r hflag
            exact ⟨x, List.mem_cons_of_mem _ hx, h1, h2⟩
        | some d =>
            have hred : cascadeStep (a, r, false) s =
                (a ++ [(s.id, cascadeReason d)], r ++ [(s.id, cascadeReason d)],
                  true) := by
              simp [cascadeStep, hmem, hfind]
            rw [hred] at hflag ⊢
            refine ⟨s, List.mem_cons_self _ _, hmem, ?_⟩
            have hbase : mapMem (a ++ [(s.id, cascadeReason d)]) s.id = true := by
              rw [mapMem_append, Bool.or_eq_true]
              exact Or.inr ((mapMem_singleton _ _ _).mpr rfl)
            exact cascadeFold_mono t _ _ _ _ hbase

end Amelia

namespace Amelia

/-- Helper: a pointwise implication between filters bounds their
lengths. -/
theorem length_filter_le_of_imp {α : Type} (l : List α) (P Q : α → Bool)
    (h : ∀ s ∈ l, P s = true → Q s = true) :
    (l.filter P).length ≤ (l.filter Q).length := by
  induction l with
  | nil => exact Nat.le_refl _
  | cons a t ih =>
      have ht := ih (fun s hs => h s (List.mem_cons_of_mem _ hs))
      by_cases hp : P a = true
      · have hq := h a (List.mem_cons_self _ _) hp
        simp only [List.filter_cons, hp, hq, if_true, List.length_cons]
        omega
      · rw [Bool.not_eq_true] at hp
        cases hq : Q a with
        | false => simpa [List.filter_cons, hp, hq] using ht
        | true =>
            have e1 : List.filter P (a :: t) = List.filter P t := by
              simp [List.filter_cons, hp]
            have e2 : List.filter Q (a :: t) = a :: List.filter Q t := by
              simp [List.filter_cons, hq]
            rw [e1, e2, List.length_cons]
            omega

/-- Helper: a pointwise implication plus one strict witness makes the
filter strictly shorter. -/
theorem length_filter_lt_of_witness {α : Type} (l : List α) (P Q : α → Bool)
    (himp : ∀ s ∈ l, P s = true → Q s = true)
    (hex : ∃ s ∈ l, Q s = true ∧ P s = false) :
    (l.filter P).length < (l.filter Q).length := by
  induction l with
  | nil =>
      obtain ⟨s, hs, -, -⟩ := hex
      cases hs
  | cons a t ih =>
      have himpt : ∀ s ∈ t, P s = true → Q s = true :=
        fun s hs => himp s (List.mem_cons_of_mem _ hs)
      obtain ⟨s, hs, hq, hp⟩ := hex
      rcases List.mem_cons.mp hs with heq | hst
      · rw [heq] at hq hp
        have ht := length_filter_le_of_imp t P Q himpt
        have e1 : List.filter P (a :: t) = List.filter P t := by
          simp [List.filter_cons, hp]
        have e2 : List.filter Q (a :: t) = a :: List.filter Q t := by
          simp [List.filter_cons, hq]
        rw [e1, e2, List.length_cons]
        omega
      · have ht := ih himpt ⟨s, hst, hq, hp⟩
        by_cases hpa : P a = true
        · have hqa := himp a (List.mem_cons_self _ _) hpa
          simp only [List.filter_cons, hpa, hqa, if_true, List.length_cons]
          omega
        · rw [Bool.not_eq_true] at hpa
          cases hqa : Q a with
          | false => simpa [List.filter_cons, hpa, hqa] using ht
          | true =>
              have e1 : List.filter P (a :: t) = List.filter P t := by
                simp [List.filter_cons, hpa]
              have e2 : List.filter Q (a :: t) = a :: List.filter Q t := by
                simp [List.filter_cons, hqa]
              rw [e1, e2, List.length_cons]
              omega

/-- Helper: the delta never picks up a key of the initial map. -/
theorem cascadeFold_fresh (init : SkipMap) (l : List PlanStep) :
    ∀ (a r : SkipMap) (f : Bool), a = init ++ r →
      (∀ k, mapMem init k = true → mapMem r k = false) →
      ∀ k, mapMem init k = true →
        mapMem (List.foldl cascadeStep (a, r, f) l).2.1 k = false := by
  induction l with
  | nil => intro a r f _ hr k hk; exact hr k hk
  | cons s t ih =>
      intro a r f hrel hr k hk
      rw [List.foldl_cons]
      by_cases hmem : mapMem a s.id = true
      · simpa [cascadeStep, hmem] using ih a r f hrel hr k hk
      · rw [Bool.not_eq_true] at hmem
        cases hfind : s.depends_on.find? (fun d => mapMem a d) with
        | none => simpa [cascadeStep, hmem, hfind] using ih a r f hrel hr k hk
        | some d =>
            have hrel2 : a ++ [(s.id, cascadeReason d)] =
                init ++ (r ++ [(s.id, cascadeReason d)]) := by
              rw [hrel, List.append_assoc]
            have hr2 : ∀ k2, mapMem init k2 = true →
                mapMem (r ++ [(s.id, cascadeReason d)]) k2 = false := by
              intro k2 hk2
              rw [mapMem_append, Bool.or_eq_false_iff]
              refine ⟨hr k2 hk2, ?_⟩
              by_cases hsk : s.id = k2
              · exfalso
                have : mapMem a k2 = true := by
                  rw [hrel, mapMem_append, hk2, Bool.true_or]
                rw [← hsk] at this
                rw [this] at hmem
                cases hmem
              · simp [mapMem, hsk]
            simpa [cascadeStep, hmem, hfind] using ih _ _ true hrel2 hr2 k hk

/-- Helper: combined invariant of the `while found_new_skips` loop,
under sufficient fuel: the final map `init ++ delta` extends the
current map, is sound for the cascade closure, is stable, and the
delta stays disjoint from the initial keys. -/
theorem cascadeLoop_spec (plan : ExecutionPlan) (init : SkipMap) :
    ∀ (fuel : Nat) (a r : SkipMap),
      cascadeMeasure (planSteps plan) a < fuel →
      a = init ++ r →
      cascadeSound (planSteps plan) (fun y => mapMem init y = true) a →
      (∀ k, mapMem init k = true → mapMem r k = false) →
      (∀ k, mapMem a k = true →
        mapMem (init ++ cascadeLoop plan fuel a r) k = true) ∧
      cascadeSound (planSteps plan) (fun y => mapMem init y = true)
        (init ++ cascadeLoop plan fuel a r) ∧
      cascadeStable (planSteps plan) (init ++ cascadeLoop plan fuel a r) ∧
      (∀ k, mapMem init k = true →
        mapMem (cascadeLoop plan fuel a r) k = false) := by
  intro fuel
  induction fuel with
  | zero =>
      intro a r hm
      exact absurd hm (Nat.not_lt_zero _)
  | succ fuel ih =>
      intro a r hm hrel hsound hfresh
      have hpassdef : cascadePass plan a r =
          List.foldl cascadeStep (a, r, false) (planSteps plan) := rfl
      rcases hp : cascadePass plan a r with ⟨a', r', flag⟩
      have hloop : cascadeLoop plan (fuel + 1) a r =
          (if flag = true then cascadeLoop plan fuel a' r' else r') := by
        show (match cascadePass plan a r with
          | (allSk', res', true) => cascadeLoop plan fuel allSk' res'
          | (_, res', false) => res') = _
        rw [hp]
        cases flag with
        | true => rfl
        | false => rfl
      cases flag with
      | false =>
          rw [hloop, if_neg (by simp)]
          have hff := cascadeFold_flag_false (planSteps plan) a r (by
            rw [← hpassdef, hp])
          rw [← hpassdef, hp] at hff
          obtain ⟨h1, h2, h3⟩ := hff
          have h2r : r' = r := h2
          rw [h2r]
          have haeq : init ++ r = a := hrel.symm
          rw [haeq]
          refine ⟨fun k hk => hk, hsound, ?_, hfresh⟩
          intro s hs hsid
          exact h3 s hs hsid
      | true =>
          rw [hloop, if_pos rfl]
          have hmono : ∀ k, mapMem a k = true → mapMem a' k = true := by
            intro k hk
            have := cascadeFold_mono (planSteps plan) a r false k hk
            rw [← hpassdef, hp] at this
            exact this
          have hgrow := cascadeFold_growth (planSteps plan) a r (by
            rw [← hpassdef, hp])
          rw [← hpassdef, hp] at hgrow
          obtain ⟨s0, hs0, hold, hnew⟩ := hgrow
          have hm' : cascadeMeasure (planSteps plan) a' <
              cascadeMeasure (planSteps plan) a := by
            unfold cascadeMeasure
            refine length_filter_lt_of_witness _ _ _ ?_ ⟨s0, hs0, ?_, ?_⟩
            · intro s hs hps
              by_cases h : mapMem a s.id = true
              · rw [hmono s.id h] at hps
                simp at hps
              · simp only [Bool.not_eq_true] at h
                simp [h]
            · simp [hold]
            · simp [hnew]
          have hrel' : a' = init ++ r' := by
            have := cascadeFold_rel (planSteps plan) init a r false hrel
            rw [← hpassdef, hp] at this
            exact this
          have hsound' : cascadeSound (planSteps plan)
              (fun y => mapMem init y = true) a' := by
            have := cascadeFold_sound (planSteps plan)
              (fun y => mapMem init y = true) (planSteps plan) a r false
              (fun s hs => hs) hsound
            rw [← hpassdef, hp] at this
            exact this
          have hfresh' : ∀ k, mapMem init k = true → mapMem r' k = false := by
            intro k hk
            have := cascadeFold_fresh init (planSteps plan) a r false hrel hfresh k hk
            rw [← hpassdef, hp] at this
            exact this
          obtain ⟨g1, g2, g3, g4⟩ := ih a' r' (by omega) hrel' hsound' hfresh'
          exact ⟨fun k hk => g1 k (hmono k hk), g2, g3, g4⟩

end Amelia

namespace Amelia

/-- Helper: a stable map that contains the initial keys contains the
whole cascade closure. -/
theorem closure_subset_stable (steps : List PlanStep) (init af : SkipMap)
    (hstable : cascadeStable steps af)
    (hinit : ∀ k, mapMem init k = true → mapMem af k = true) :
    ∀ x, SkippedClosure steps (fun y => mapMem init y = true) x →
      mapMem af x = true := by
  intro x hx
  induction hx with
  | base y hy => exact hinit y hy
  | cascade s d hs hd _ ihd =>
      by_cases hsid : mapMem af s.id = true
      · exact hsid
      · rw [Bool.not_eq_true] at hsid
        have hnone := hstable s hs hsid
        have hdf := List.find?_eq_none.mp hnone d hd
        rw [ihd] at hdf
        simp at hdf

/-- C1: `get_cascade_skips` returns exactly the ids outside the initial
skip map that the cascade closure reaches (steps with a `depends_on`
chain into the initially skipped set); the union of the initial set and
the returned delta is downward-closed under `depends_on` within the
plan; and the delta never contains an initially skipped id. -/
theorem C1_cascade_skips_exact :
    ∀ (step_id : String) (plan : ExecutionPlan) (skip_reasons : SkipMap),
      mapMem skip_reasons step_id = true →
      (∀ x, mapMem (get_cascade_skips step_id plan skip_reasons) x = true ↔
        (SkippedClosure (planSteps plan)
            (fun y => mapMem skip_reasons y = true) x ∧
          mapMem skip_reasons x = false)) ∧
      (∀ s ∈ planSteps plan, ∀ d ∈ s.depends_on,
        (mapMem skip_reasons d = true ∨
          mapMem (get_cascade_skips step_id plan skip_reasons) d = true) →
        (mapMem skip_reasons s.id = true ∨
          mapMem (get_cascade_skips step_id plan skip_reasons) s.id = true)) ∧
      (∀ x, mapMem skip_reasons x = true →
        mapMem (get_cascade_skips step_id plan skip_reasons) x = false) := by
  intro step_id plan skip_reasons _hblocked
  have hspec := cascadeLoop_spec plan skip_reasons
    ((planSteps plan).length + 1) skip_reasons []
    (Nat.lt_succ_of_le (List.length_filter_le _ _))
    (List.append_nil _).symm
    (fun k hk => SkippedClosure.base k hk)
    (fun k _ => rfl)
  obtain ⟨hmono, hsound, hstable, hfresh⟩ := hspec
  have hrf : get_cascade_skips step_id plan skip_reasons =
      cascadeLoop plan ((planSteps plan).length + 1) skip_reasons [] := rfl
  rw [hrf]
  set rf := cascadeLoop plan ((planSteps plan).length + 1) skip_reasons []
  have hinitaf : ∀ k, mapMem skip_reasons k = true →
      mapMem (skip_reasons ++ rf) k = true := by
    intro k hk
    rw [mapMem_append, hk, Bool.true_or]
  refine ⟨?_, ?_, hfresh⟩
  · intro x
    constructor
    · intro hx
      have hxa : mapMem (skip_reasons ++ rf) x = true := by
        rw [mapMem_append, hx, Bool.or_true]
      refine ⟨hsound x hxa, ?_⟩
      by_cases hi : mapMem skip_reasons x = true
      · rw [hfresh x hi] at hx
        cases hx
      · rw [Bool.not_eq_true] at hi
        exact hi
    · rintro ⟨hcl, hni⟩
      have hxa := closure_subset_stable (planSteps plan) skip_reasons
        (skip_reasons ++ rf) hstable hinitaf x hcl
      rw [mapMem_append, hni, Bool.false_or] at hxa
      exact hxa
  · intro s hs d hd hdmem
    have hda : mapMem (skip_reasons ++ rf) d = true := by
      rw [mapMem_append, Bool.or_eq_true]
      exact hdmem
    by_cases hsid : mapMem (skip_reasons ++ rf) s.id = true
    · rw [mapMem_append, Bool.or_eq_true] at hsid
      exact hsid
    · rw [Bool.not_eq_true] at hsid
      have hnone := hstable s hs hsid
      have hdf := List.find?_eq_none.mp hnone d hd
      rw [hda] at hdf
      simp at hdf

/-- C1 witness: skipping s1 in the demo plan cascades to exactly s2 and
s3 (transitive dependants), never to the initially skipped s1 itself,
and the union is closed under `depends_on`. -/
theorem C1_cascade_skips_exact_witness :
    mapMem [("s1", "blocked")] "s1" = true ∧
    (mapMem (get_cascade_skips "s1" planCascadeDemo [("s1", "blocked")]) "s2" = true ∧
     mapMem (get_cascade_skips "s1" planCascadeDemo [("s1", "blocked")]) "s1" = false) := by
  refine ⟨by decide, ?_, ?_⟩
  · exact (C1_cascade_skips_exact "s1" planCascadeDemo [("s1", "blocked")]
      (by decide)).1 "s2" |>.mpr
      ⟨SkippedClosure.cascade { id := "s2", depends_on := ["s1"] } "s1"
        (by decide) (by decide) (SkippedClosure.base "s1" (by decide)),
       by decide⟩
  · exact (C1_cascade_skips_exact "s1" planCascadeDemo [("s1", "blocked")]
      (by decide)).2.2 "s1" (by decide)

end Amelia

namespace Amelia

/-- Helper: a colour of rank 0 is white. -/
theorem color_eq_white_of_ord {c : Color} (h : colorOrd c ≤ 0) :
    c = Color.white := by
  cases c <;> first | rfl | simp [colorOrd] at h

/-- Helper: a colour of rank at least 2 is black. -/
theorem color_eq_black_of_ord {c : Color} (h : 2 ≤ colorOrd c) :
    c = Color.black := by
  cases c <;> first | rfl | simp [colorOrd] at h

/-- Helper: every colour has rank at most 2. -/
theorem colorOrd_le_two (c : Color) : colorOrd c ≤ 2 := by
  cases c <;> simp [colorOrd]

/-- Helper: the neighbour loop of the DFS never lowers a colour, given
that the visit callback never does (on the WHITE nodes it is called
on). -/
theorem dfsGo_mono (visit : (String → Color) → String → (String → Color) × Bool)
    (hv : ∀ (c : String → Color) (n : String), c n = Color.white →
      ∀ x, colorOrd (c x) ≤ colorOrd ((visit c n).1 x)) :
    ∀ (l : List String) (c : String → Color) (x : String),
      colorOrd (c x) ≤ colorOrd ((dfsGo visit c l).1 x) := by
  intro l
  induction l with
  | nil => intro c x; exact Nat.le_refl _
  | cons n rest ih =>
      intro c x
      rw [dfsGo]
      by_cases hg : c n = Color.gray
      · rw [if_pos hg]
      · rw [if_neg hg]
        by_cases hw : c n = Color.white
        · rw [if_pos hw]
          cases hvis : visit c n with
          | mk c2 b =>
              have h1 := hv c n hw x
              rw [hvis] at h1
              cases b with
              | true => exact h1
              | false => exact le_trans h1 (ih c2 x)
        · rw [if_neg hw]
          exact ih c x

/-- Helper: a DFS visit of a WHITE node never lowers a colour. -/
theorem dfsVisit_mono (nbrs : String → List String) :
    ∀ (fuel : Nat) (c : String → Color) (node : String),
      c node = Color.white →
      ∀ x, colorOrd (c x) ≤ colorOrd ((dfsVisit nbrs fuel c node).1 x) := by
  intro fuel
  induction fuel with
  | zero => intro c node _ x; exact Nat.le_refl _
  | succ fuel ih =>
      intro c node hw x
      rw [dfsVisit]
      have hpg : ∀ y, colorOrd (c y) ≤ colorOrd (paint c node Color.gray y) := by
        intro y
        unfold paint
        by_cases hy : y = node
        · rw [if_pos hy, hy, hw]
          decide
        · rw [if_neg hy]
      have hgo := dfsGo_mono (dfsVisit nbrs fuel) ih (nbrs node)
        (paint c node Color.gray)
      cases hvis : dfsGo (dfsVisit nbrs fuel) (paint c node Color.gray)
          (nbrs node) with
      | mk c2 b =>
          have h2 : ∀ y, colorOrd (c y) ≤ colorOrd (c2 y) := by
            intro y
            have := hgo y
            rw [hvis] at this
            exact le_trans (hpg y) this
          cases b with
          | true => exact h2 x
          | false =>
              show colorOrd (c x) ≤ colorOrd (paint c2 node Color.black x)
              unfold paint
              by_cases hx : x = node
              · rw [if_pos hx]
                exact le_trans (colorOrd_le_two _) (Nat.le_refl _)
              · rw [if_neg hx]
                exact h2 x

/-- Helper: the whole-graph DFS loop never lowers a colour. -/
theorem dfsAll_mono (nbrs : String → List String) (fuel : Nat) :
    ∀ (l : List String) (c : String → Color) (x : String),
      colorOrd (c x) ≤ colorOrd ((dfsAll nbrs fuel c l).1 x) := by
  intro l
  induction l with
  | nil => intro c x; exact Nat.le_refl _
  | cons t rest ih =>
      intro c x
      rw [dfsAll]
      by_cases hw : c t = Color.white
      · rw [if_pos hw]
        cases hvis : dfsVisit nbrs fuel c t with
        | mk c2 b =>
            have h1 := dfsVisit_mono nbrs fuel c t hw x
            rw [hvis] at h1
            cases b with
            | true => exact h1
            | false => exact le_trans h1 (ih c2 x)
      · rw [if_neg hw]
        exact ih c x

/-- Helper: fewer WHITE ids under a colour-monotone step. -/
theorem whiteCount_le_of_mono (ids : List String) (c c2 : String → Color)
    (h : ∀ x, colorOrd (c x) ≤ colorOrd (c2 x)) :
    whiteCount ids c2 ≤ whiteCount ids c := by
  unfold whiteCount
  refine length_filter_le_of_imp _ _ _ ?_
  intro x _ hx
  simp only [decide_eq_true_eq] at hx ⊢
  have h2 := h x
  rw [hx] at h2
  exact color_eq_white_of_ord h2

end Amelia

namespace Amelia

/-- Helper: painting a WHITE id GRAY strictly shrinks the WHITE
count. -/
theorem whiteCount_paint_gray_lt (ids : List String) (c : String → Color)
    (node : String) (hnid : node ∈ ids) (hw : c node = Color.white) :
    whiteCount ids (paint c node Color.gray) < whiteCount ids c := by
  unfold whiteCount
  refine length_filter_lt_of_witness _ _ _ ?_ ⟨node, hnid, ?_, ?_⟩
  · intro x _ hx
    simp only [decide_eq_true_eq] at hx ⊢
    unfold paint at hx
    by_cases hxn : x = node
    · rw [if_pos hxn] at hx
      cases hx
    · rw [if_neg hxn] at hx
      exact hx
  · simp [hw]
  · simp [paint]

/-- Helper: a false-returning neighbour loop preserves the GRAY set,
given the visit callback does. -/
theorem dfsGo_grays (visit : (String → Color) → String → (String → Color) × Bool)
    (hv : ∀ (c : String → Color) (n : String), c n = Color.white →
      (visit c n).2 = false →
      ∀ x, ((visit c n).1 x = Color.gray ↔ c x = Color.gray)) :
    ∀ (l : List String) (c : String → Color),
      (dfsGo visit c l).2 = false →
      ∀ x, ((dfsGo visit c l).1 x = Color.gray ↔ c x = Color.gray) := by
  intro l
  induction l with
  | nil => intro c _ x; exact Iff.rfl
  | cons n rest ih =>
      intro c hfalse x
      rw [dfsGo] at hfalse ⊢
      by_cases hg : c n = Color.gray
      · rw [if_pos hg] at hfalse
        cases hfalse
      · rw [if_neg hg] at hfalse ⊢
        by_cases hw : c n = Color.white
        · rw [if_pos hw] at hfalse ⊢
          cases hvis : visit c n with
          | mk c2 b =>
              rw [hvis] at hfalse
              cases b with
              | true => cases hfalse
              | false =>
                  have h1 := hv c n hw (by rw [hvis])
                  rw [hvis] at h1
                  exact Iff.trans (ih c2 hfalse x) (h1 x)
        · rw [if_neg hw] at hfalse ⊢
          exact ih c hfalse x

/-- Helper: a false-returning visit of a WHITE node restores the GRAY
set. -/
theorem dfsVisit_grays (nbrs : String → List String) :
    ∀ (fuel : Nat) (c : String → Color) (node : String),
      c node = Color.white →
      (dfsVisit nbrs fuel c node).2 = false →
      ∀ x, ((dfsVisit nbrs fuel c node).1 x = Color.gray ↔ c x = Color.gray) := by
  intro fuel
  induction fuel with
  | zero => intro c node _ _ x; exact Iff.rfl
  | succ fuel ih =>
      intro c node hw hfalse x
      rw [dfsVisit] at hfalse ⊢
      cases hvis : dfsGo (dfsVisit nbrs fuel) (paint c node Color.gray)
          (nbrs node) with
      | mk c2 b =>
          rw [hvis] at hfalse
          cases b with
          | true => cases hfalse
          | false =>
              have hgo := dfsGo_grays (dfsVisit nbrs fuel) ih (nbrs node)
                (paint c node Color.gray) (by rw [hvis])
              rw [hvis] at hgo
              show paint c2 node Color.black x = Color.gray ↔ c x = Color.gray
              by_cases hx : x = node
              · constructor
                · intro hc
                  unfold paint at hc
                  rw [if_pos hx] at hc
                  cases hc
                · intro hc
                  rw [hx, hw] at hc
                  cases hc
              · have h2 := hgo x
                unfold paint at h2 ⊢
                rw [if_neg hx] at h2 ⊢
                exact h2

end Amelia

namespace Amelia

/-- Helper: every member of the GRAY stack reaches the stack top along
dependency edges. -/
theorem grayChain_reach (nbrs : String → List String) :
    ∀ (stack : List String) (h : String),
      grayChain nbrs (h :: stack) → ∀ x ∈ h :: stack,
        x = h ∨ Relation.TransGen (nbrEdge nbrs) x h := by
  intro stack
  induction stack with
  | nil =>
      intro h _ x hx
      rcases List.mem_singleton.mp hx with rfl
      exact Or.inl rfl
  | cons b t ih =>
      intro h hchain x hx
      obtain ⟨hedge, htail⟩ := hchain
      rcases List.mem_cons.mp hx with hxh | hxt
      · exact Or.inl hxh
      · have hb : nbrEdge nbrs b h := hedge
        rcases ih b htail x hxt with hxb | htg
        · exact Or.inr (Relation.TransGen.single (hxb ▸ hb))
        · exact Or.inr (Relation.TransGen.tail htg hb)

/-- Helper: a true-returning neighbour loop has found a cycle, given
the stack coupling and that the visit callback is likewise sound. -/
theorem dfsGo_sound (nbrs : String → List String)
    (visit : (String → Color) → String → (String → Color) × Bool)
    (hvs : ∀ (c : String → Color) (n : String) (stack : List String),
      c n = Color.white → stackOk nbrs c stack → headLink nbrs n stack →
      (visit c n).2 = true → nbrCycle nbrs)
    (hvg : ∀ (c : String → Color) (n : String), c n = Color.white →
      (visit c n).2 = false →
      ∀ x, ((visit c n).1 x = Color.gray ↔ c x = Color.gray)) :
    ∀ (l : List String) (c : String → Color) (node' : String)
      (stack : List String),
      stackOk nbrs c (node' :: stack) →
      (∀ n ∈ l, n ∈ nbrs node') →
      (dfsGo visit c l).2 = true → nbrCycle nbrs := by
  intro l
  induction l with
  | nil => intro c node' stack _ _ htrue; cases htrue
  | cons n rest ih =>
      intro c node' stack hso hsub htrue
      rw [dfsGo] at htrue
      by_cases hg : c n = Color.gray
      · have hmem : n ∈ node' :: stack := (hso.1 n).mp hg
        have hedge : nbrEdge nbrs node' n := hsub n (List.mem_cons_self _ _)
        rcases grayChain_reach nbrs stack node' hso.2 n hmem with hnh | htg
        · exact ⟨node', Relation.TransGen.single (by rw [hnh] at hedge; exact hedge)⟩
        · exact ⟨node', Relation.TransGen.head hedge htg⟩
      · rw [if_neg hg] at htrue
        by_cases hw : c n = Color.white
        · rw [if_pos hw] at htrue
          cases hvis : visit c n with
          | mk c2 b =>
              rw [hvis] at htrue
              cases b with
              | true =>
                  refine hvs c n (node' :: stack) hw hso ?_ (by rw [hvis])
                  exact hsub n (List.mem_cons_self _ _)
              | false =>
                  have hgr := hvg c n hw (by rw [hvis])
                  rw [hvis] at hgr
                  have hso2 : stackOk nbrs c2 (node' :: stack) := by
                    refine ⟨?_, hso.2⟩
                    intro x
                    exact Iff.trans (hgr x) (hso.1 x)
                  exact ih c2 node' stack hso2
                    (fun m hm => hsub m (List.mem_cons_of_mem _ hm)) htrue
        · rw [if_neg hw] at htrue
          exact ih c node' stack hso
            (fun m hm => hsub m (List.mem_cons_of_mem _ hm)) htrue

/-- Helper: a true-returning visit of a WHITE node hanging off the
stack has found a cycle. -/
theorem dfsVisit_sound (nbrs : String → List String) :
    ∀ (fuel : Nat) (c : String → Color) (node : String) (stack : List String),
      c node = Color.white → stackOk nbrs c stack →
      headLink nbrs node stack →
      (dfsVisit nbrs fuel c node).2 = true → nbrCycle nbrs := by
  intro fuel
  induction fuel with
  | zero => intro c node stack _ _ _ htrue; cases htrue
  | succ fuel ih =>
      intro c node stack hw hso hlink htrue
      rw [dfsVisit] at htrue
      cases hvis : dfsGo (dfsVisit nbrs fuel) (paint c node Color.gray)
          (nbrs node) with
      | mk c2 b =>
          rw [hvis] at htrue
          cases b with
          | false => cases htrue
          | true =>
              have hso2 : stackOk nbrs (paint c node Color.gray)
                  (node :: stack) := by
                constructor
                · intro x
                  unfold paint
                  by_cases hx : x = node
                  · rw [if_pos hx]
                    simp [hx]
                  · rw [if_neg hx]
                    constructor
                    · intro hxg
                      exact List.mem_cons_of_mem _ ((hso.1 x).mp hxg)
                    · intro hxm
                      rcases List.mem_cons.mp hxm with h | h
                      · exact absurd h hx
                      · exact (hso.1 x).mpr h
                · cases stack with
                  | nil => exact trivial
                  | cons h t => exact ⟨hlink, hso.2⟩
              exact dfsGo_sound nbrs (dfsVisit nbrs fuel) ih
                (dfsVisit_grays nbrs fuel) (nbrs node)
                (paint c node Color.gray) node stack hso2
                (fun m hm => hm) (by rw [hvis])

end Amelia

namespace Amelia

/-- Helper: elements are bounded by the fold of `max` over the list. -/
theorem le_foldr_max (l : List Nat) : ∀ x ∈ l, x ≤ l.foldr Nat.max 0 := by
  induction l with
  | nil => intro x hx; cases hx
  | cons a t ih =>
      intro x hx
      rcases List.mem_cons.mp hx with h | h
      · rw [h, List.foldr_cons]
        exact Nat.le_max_left _ _
      · rw [List.foldr_cons]
        exact le_trans (ih x h) (Nat.le_max_right _ _)

/-- Helper: painting a WHITE node GRAY preserves the ranking
certificate (it touches no BLACK node). -/
theorem rankInv_paint_gray (nbrs : String → List String) (c : String → Color)
    (node : String) (hw : c node = Color.white) (h : rankInv nbrs c) :
    rankInv nbrs (paint c node Color.gray) := by
  obtain ⟨rk, hr⟩ := h
  refine ⟨rk, ?_⟩
  intro u hu v hv
  have hun : u ≠ node := by
    intro heq
    rw [heq] at hu
    unfold paint at hu
    rw [if_pos rfl] at hu
    cases hu
  unfold paint at hu
  rw [if_neg hun] at hu
  obtain ⟨h1, h2⟩ := hr u hu v hv
  have hvn : v ≠ node := by
    intro heq
    rw [heq, hw] at h1
    cases h1
  unfold paint
  rw [if_neg hvn]
  exact ⟨h1, h2⟩

/-- Helper (main completeness invariant): a false-returning visit of a
WHITE id, with enough fuel, blackens the node and preserves the ranking
certificate. -/
theorem dfsVisit_black (nbrs : String → List String) (ids : List String)
    (closed : ∀ x ∈ ids, ∀ y ∈ nbrs x, y ∈ ids) :
    ∀ (fuel : Nat) (c : String → Color) (node : String),
      node ∈ ids → c node = Color.white →
      whiteCount ids c < fuel → rankInv nbrs c →
      (dfsVisit nbrs fuel c node).2 = false →
      (dfsVisit nbrs fuel c node).1 node = Color.black ∧
      rankInv nbrs (dfsVisit nbrs fuel c node).1 := by
  intro fuel
  induction fuel with
  | zero =>
      intro c node _ _ hwc
      exact absurd hwc (Nat.not_lt_zero _)
  | succ fuel ih =>
      intro c node hnid hw hwc hrk hfalse
      have go_black : ∀ (l : List String) (c1 : String → Color),
          (∀ n ∈ l, n ∈ ids) → whiteCount ids c1 < fuel →
          rankInv nbrs c1 →
          (dfsGo (dfsVisit nbrs fuel) c1 l).2 = false →
          rankInv nbrs (dfsGo (dfsVisit nbrs fuel) c1 l).1 ∧
          (∀ n ∈ l, (dfsGo (dfsVisit nbrs fuel) c1 l).1 n = Color.black) := by
        intro l
        induction l with
        | nil =>
            intro c1 _ _ hrk1 _
            exact ⟨hrk1, by intro n hn; cases hn⟩
        | cons n rest ihl =>
            intro c1 hsub hwc1 hrk1 hfalse1
            rw [dfsGo] at hfalse1 ⊢
            by_cases hg : c1 n = Color.gray
            · rw [if_pos hg] at hfalse1
              cases hfalse1
            · rw [if_neg hg] at hfalse1 ⊢
              by_cases hwn : c1 n = Color.white
              · rw [if_pos hwn] at hfalse1 ⊢
                cases hvis : dfsVisit nbrs fuel c1 n with
                | mk c2 b =>
                    rw [hvis] at hfalse1
                    cases b with
                    | true => cases hfalse1
                    | false =>
                        have hnb := ih c1 n (hsub n (List.mem_cons_self _ _))
                          hwn hwc1 hrk1 (by rw [hvis])
                        rw [hvis] at hnb
                        obtain ⟨hblackn0, hrk20⟩ := hnb
                        have hblackn : c2 n = Color.black := hblackn0
                        have hrk2 : rankInv nbrs c2 := hrk20
                        have hmono2 : ∀ x, colorOrd (c1 x) ≤ colorOrd (c2 x) := by
                          intro x
                          have := dfsVisit_mono nbrs fuel c1 n hwn x
                          rw [hvis] at this
                          exact this
                        have hwc2 : whiteCount ids c2 < fuel :=
                          lt_of_le_of_lt
                            (whiteCount_le_of_mono ids c1 c2 hmono2) hwc1
                        have hrest := ihl c2
                          (fun m hm => hsub m (List.mem_cons_of_mem _ hm))
                          hwc2 hrk2 hfalse1
                        refine ⟨hrest.1, ?_⟩
                        intro m hm
                        rcases List.mem_cons.mp hm with hmn | hmr
                        · rw [hmn]
                          refine color_eq_black_of_ord ?_
                          calc 2 = colorOrd (c2 n) := by simp [hblackn, colorOrd]
                            _ ≤ colorOrd ((dfsGo (dfsVisit nbrs fuel) c2 rest).1 n) :=
                              dfsGo_mono (dfsVisit nbrs fuel)
                                (dfsVisit_mono nbrs fuel) rest c2 n
                        · exact hrest.2 m hmr
              · rw [if_neg hwn] at hfalse1 ⊢
                have hblackn : c1 n = Color.black := by
                  cases hc : c1 n with
                  | white => exact absurd hc hwn
                  | gray => exact absurd hc hg
                  | black => rfl
                have hrest := ihl c1
                  (fun m hm => hsub m (List.mem_cons_of_mem _ hm))
                  hwc1 hrk1 hfalse1
                refine ⟨hrest.1, ?_⟩
                intro m hm
                rcases List.mem_cons.mp hm with hmn | hmr
                · rw [hmn]
                  refine color_eq_black_of_ord ?_
                  calc 2 = colorOrd (c1 n) := by simp [hblackn, colorOrd]
                    _ ≤ colorOrd ((dfsGo (dfsVisit nbrs fuel) c1 rest).1 n) :=
                      dfsGo_mono (dfsVisit nbrs fuel)
                        (dfsVisit_mono nbrs fuel) rest c1 n
                · exact hrest.2 m hmr
      rw [dfsVisit] at hfalse ⊢
      cases hvis : dfsGo (dfsVisit nbrs fuel) (paint c node Color.gray)
          (nbrs node) with
      | mk c2 b =>
          rw [hvis] at hfalse
          cases b with
          | true => cases hfalse
          | false =>
              have hwc1 : whiteCount ids (paint c node Color.gray) < fuel := by
                have := whiteCount_paint_gray_lt ids c node hnid hw
                omega
              have hrk1 := rankInv_paint_gray nbrs c node hw hrk
              have hgb := go_black (nbrs node) (paint c node Color.gray)
                (closed node hnid) hwc1 hrk1 (by rw [hvis])
              rw [hvis] at hgb
              obtain ⟨hrk2a, hnbrs0⟩ := hgb
              have hrk2 : rankInv nbrs c2 := hrk2a
              have hnbrs : ∀ n ∈ nbrs node, c2 n = Color.black :=
                fun n hn => hnbrs0 n hn
              have hc2node : c2 node = Color.gray := by
                have hgr := dfsGo_grays (dfsVisit nbrs fuel)
                  (dfsVisit_grays nbrs fuel) (nbrs node)
                  (paint c node Color.gray) (by rw [hvis]) node
                rw [hvis] at hgr
                refine hgr.mpr ?_
                unfold paint
                rw [if_pos rfl]
              constructor
              · show paint c2 node Color.black node = Color.black
                unfold paint
                rw [if_pos rfl]
              · obtain ⟨rk, hr⟩ := hrk2
                refine ⟨fun x => if x = node
                    then (ids.map rk).foldr Nat.max 0 + 1 else rk x, ?_⟩
                intro u hu v hv
                show paint c2 node Color.black v = Color.black ∧ _
                by_cases hun : u = node
                · have hvb : c2 v = Color.black := hnbrs v (by rw [← hun]; exact hv)
                  have hvn : v ≠ node := by
                    intro heq
                    rw [heq, hc2node] at hvb
                    cases hvb
                  have hvids : v ∈ ids := closed u (by rw [hun]; exact hnid) v hv
                  constructor
                  · unfold paint
                    rw [if_neg hvn]
                    exact hvb
                  · simp only [if_neg hvn, if_pos hun]
                    have := le_foldr_max (ids.map rk) (rk v)
                      (List.mem_map.mpr ⟨v, hvids, rfl⟩)
                    omega
                · have hub : c2 u = Color.black := by
                    have : paint c2 node Color.black u = Color.black := hu
                    unfold paint at this
                    rw [if_neg hun] at this
                    exact this
                  obtain ⟨h1, h2⟩ := hr u hub v hv
                  have hvn : v ≠ node := by
                    intro heq
                    rw [heq, hc2node] at h1
                    cases h1
                  constructor
                  · unfold paint
                    rw [if_neg hvn]
                    exact h1
                  · simp only [if_neg hvn, if_neg hun]
                    exact h2

end Amelia

namespace Amelia

/-- Helper: if the whole-graph loop returns false, every traversed id
is BLACK, no id is GRAY, and the ranking certificate survives. -/
theorem dfsAll_false (nbrs : String → List String) (ids : List String)
    (closed : ∀ x ∈ ids, ∀ y ∈ nbrs x, y ∈ ids) (fuel : Nat) :
    ∀ (l : List String) (c : String → Color),
      (∀ t ∈ l, t ∈ ids) → (∀ x, c x ≠ Color.gray) → rankInv nbrs c →
      whiteCount ids c < fuel →
      (dfsAll nbrs fuel c l).2 = false →
      rankInv nbrs (dfsAll nbrs fuel c l).1 ∧
      (∀ t ∈ l, (dfsAll nbrs fuel c l).1 t = Color.black) := by
  intro l
  induction l with
  | nil =>
      intro c _ _ hrk _ _
      exact ⟨hrk, by intro t ht; cases ht⟩
  | cons t rest ih =>
      intro c hsub hng hrk hwc hfalse
      rw [dfsAll] at hfalse ⊢
      by_cases hw : c t = Color.white
      · rw [if_pos hw] at hfalse ⊢
        cases hvis : dfsVisit nbrs fuel c t with
        | mk c2 b =>
            rw [hvis] at hfalse
            cases b with
            | true => cases hfalse
            | false =>
                have hvb := dfsVisit_black nbrs ids closed fuel c t
                  (hsub t (List.mem_cons_self _ _)) hw hwc hrk (by rw [hvis])
                rw [hvis] at hvb
                obtain ⟨hb0, hrk20⟩ := hvb
                have hb : c2 t = Color.black := hb0
                have hrk2 : rankInv nbrs c2 := hrk20
                have hng2 : ∀ x, c2 x ≠ Color.gray := by
                  intro x hx
                  have hgr := dfsVisit_grays nbrs fuel c t hw (by rw [hvis]) x
                  rw [hvis] at hgr
                  exact hng x (hgr.mp hx)
                have hmono2 : ∀ x, colorOrd (c x) ≤ colorOrd (c2 x) := by
                  intro x
                  have := dfsVisit_mono nbrs fuel c t hw x
                  rw [hvis] at this
                  exact this
                have hwc2 : whiteCount ids c2 < fuel :=
                  lt_of_le_of_lt (whiteCount_le_of_mono ids c c2 hmono2) hwc
                have hrest := ih c2
                  (fun m hm => hsub m (List.mem_cons_of_mem _ hm))
                  hng2 hrk2 hwc2 hfalse
                refine ⟨hrest.1, ?_⟩
                intro m hm
                rcases List.mem_cons.mp hm with hmt | hmr
                · rw [hmt]
                  refine color_eq_black_of_ord ?_
                  calc 2 = colorOrd (c2 t) := by simp [hb, colorOrd]
                    _ ≤ colorOrd ((dfsAll nbrs fuel c2 rest).1 t) :=
                      dfsAll_mono nbrs fuel rest c2 t
                · exact hrest.2 m hmr
      · rw [if_neg hw] at hfalse ⊢
        have hb : c t = Color.black := by
          cases hc : c t with
          | white => exact absurd hc hw
          | gray => exact absurd hc (hng t)
          | black => rfl
        have hrest := ih c (fun m hm => hsub m (List.mem_cons_of_mem _ hm))
          hng hrk hwc hfalse
        refine ⟨hrest.1, ?_⟩
        intro m hm
        rcases List.mem_cons.mp hm with hmt | hmr
        · rw [hmt]
          refine color_eq_black_of_ord ?_
          calc 2 = colorOrd (c t) := by simp [hb, colorOrd]
            _ ≤ colorOrd ((dfsAll nbrs fuel c rest).1 t) :=
              dfsAll_mono nbrs fuel rest c t
        · exact hrest.2 m hmr

/-- Helper: a true-returning whole-graph loop has found a cycle. -/
theorem dfsAll_true (nbrs : String → List String) (fuel : Nat) :
    ∀ (l : List String) (c : String → Color),
      (∀ x, c x ≠ Color.gray) →
      (dfsAll nbrs fuel c l).2 = true → nbrCycle nbrs := by
  intro l
  induction l with
  | nil => intro c _ htrue; cases htrue
  | cons t rest ih =>
      intro c hng htrue
      rw [dfsAll] at htrue
      by_cases hw : c t = Color.white
      · rw [if_pos hw] at htrue
        cases hvis : dfsVisit nbrs fuel c t with
        | mk c2 b =>
            rw [hvis] at htrue
            cases b with
            | true =>
                refine dfsVisit_sound nbrs fuel c t [] hw ?_ trivial
                  (by rw [hvis])
                refine ⟨?_, trivial⟩
                intro x
                constructor
                · intro hx
                  exact absurd hx (hng x)
                · intro hx
                  cases hx
            | false =>
                have hng2 : ∀ x, c2 x ≠ Color.gray := by
                  intro x hx
                  have hgr := dfsVisit_grays nbrs fuel c t hw (by rw [hvis]) x
                  rw [hvis] at hgr
                  exact hng x (hgr.mp hx)
                exact ih c2 hng2 htrue
      · rw [if_neg hw] at htrue
        exact ih c hng htrue

/-- Helper: a ranking certificate over an all-BLACK id set forbids
cycles. -/
theorem no_cycle_of_rank (nbrs : String → List String) (ids : List String)
    (closed : ∀ x ∈ ids, ∀ y ∈ nbrs x, y ∈ ids) (c : String → Color)
    (hrk : rankInv nbrs c) (hblack : ∀ t ∈ ids, c t = Color.black)
    (hstart : ∀ u v, nbrEdge nbrs u v → u ∈ ids) :
    ¬ nbrCycle nbrs := by
  rintro ⟨x, htg⟩
  obtain ⟨rk, hr⟩ := hrk
  have key : ∀ u v, Relation.TransGen (nbrEdge nbrs) u v →
      u ∈ ids ∧ v ∈ ids ∧ rk v < rk u := by
    intro u v htg2
    induction htg2 with
    | single h =>
        have hu : u ∈ ids := hstart _ _ h
        have hcb := hr u (hblack u hu) _ h
        exact ⟨hu, closed u hu _ h, hcb.2⟩
    | tail htg2 h ih =>
        obtain ⟨hu, hb, hrank⟩ := ih
        have hcb := hr _ (hblack _ hb) _ h
        exact ⟨hu, closed _ hb _ h, lt_trans hcb.2 hrank⟩
  obtain ⟨-, -, hlt⟩ := key x x htg
  exact Nat.lt_irrefl _ hlt

/-- Helper: every dependency edge starts at a task id. -/
theorem depEdge_start (tasks : List Task) (u v : String)
    (h : depEdge tasks u v) : u ∈ taskIds tasks := by
  unfold depEdge adjOf at h
  cases hf : tasks.reverse.find? (fun t => t.id = u) with
  | none =>
      rw [hf] at h
      cases h
  | some t =>
      have heq : t.id = u := by simpa using List.find?_some hf
      have ht : t ∈ tasks := by
        have := List.mem_of_find?_eq_some hf
        rw [List.mem_reverse] at this
        exact this
      unfold taskIds
      rw [List.mem_dedup]
      exact List.mem_map.mpr ⟨t, ht, heq⟩

/-- Helper: when no dependency is missing, the adjacency stays inside
the task ids. -/
theorem adjOf_closed (tasks : List Task)
    (h : ∀ t ∈ tasks, ∀ d ∈ t.dependencies, d ∈ taskIds tasks) :
    ∀ x ∈ taskIds tasks, ∀ y ∈ adjOf tasks x, y ∈ taskIds tasks := by
  intro x _ y hy
  unfold adjOf at hy
  cases hf : tasks.reverse.find? (fun t => t.id = x) with
  | none =>
      rw [hf] at hy
      cases hy
  | some t =>
      rw [hf] at hy
      have ht : t ∈ tasks := by
        have := List.mem_of_find?_eq_some hf
        rw [List.mem_reverse] at this
        exact this
      exact h t ht y hy

end Amelia

namespace Amelia

/-- Helper: an empty missing-dependency scan means every dependency is
a task id. -/
theorem findMissingDep_none (tasks : List Task)
    (h : findMissingDep tasks = none) :
    ∀ t ∈ tasks, ∀ d ∈ t.dependencies, d ∈ taskIds tasks := by
  intro t ht d hd
  unfold findMissingDep at h
  have h3 := List.findSome?_eq_none_iff.mp h t ht
  have h4 := List.find?_eq_none.mp h3 d hd
  simpa using h4

/-- Helper: a successful missing-dependency scan names a listed but
unknown dependency. -/
theorem findMissingDep_some (tasks : List Task) (d : String)
    (h : findMissingDep tasks = some d) :
    (∃ t ∈ tasks, d ∈ t.dependencies) ∧ d ∉ taskIds tasks := by
  unfold findMissingDep at h
  obtain ⟨t, ht, hf⟩ := List.exists_of_findSome?_eq_some h
  have hd : d ∈ t.dependencies := List.mem_of_find?_eq_some hf
  have hp := List.find?_some hf
  simp at hp
  exact ⟨⟨t, ht, hd⟩, hp⟩

/-- C6 counterexample: on a task list with both a dependency cycle
(a ↔ b) and a missing dependency (c → d), the validator raises the
missing-dependency error, not "Cyclic dependency detected", so the
claim's cycle clause fails as stated. -/
theorem C6_task_graph_validation_counterexample :
    hasTaskCycle tasksCycleAndMissing ∧
    validate_task_graph tasksCycleAndMissing =
      .error ("Task '" ++ "d" ++ "' not found") ∧
    ("Task '" ++ "d" ++ "' not found") ≠ "Cyclic dependency detected" := by
  have e1 : depEdge tasksCycleAndMissing "a" "b" := by
    unfold depEdge
    decide
  have e2 : depEdge tasksCycleAndMissing "b" "a" := by
    unfold depEdge
    decide
  exact ⟨⟨"a", Relation.TransGen.tail (Relation.TransGen.single e1) e2⟩,
    by rfl, by decide⟩

/-- C6 amended: a dependency on an unknown task id is reported first,
with the message naming that id; when every dependency exists, the
validator raises "Cyclic dependency detected" exactly when the
dependency graph has a cycle, and returns the task list unchanged
otherwise. -/
theorem C6_task_graph_validation_amended :
    ∀ tasks : List Task,
      ((∃ t ∈ tasks, ∃ d ∈ t.dependencies, d ∉ taskIds tasks) →
        ∃ d2, (∃ t ∈ tasks, d2 ∈ t.dependencies) ∧ d2 ∉ taskIds tasks ∧
          validate_task_graph tasks =
            .error ("Task '" ++ d2 ++ "' not found")) ∧
      ((∀ t ∈ tasks, ∀ d ∈ t.dependencies, d ∈ taskIds tasks) →
        (hasTaskCycle tasks →
          validate_task_graph tasks = .error "Cyclic dependency detected") ∧
        (¬ hasTaskCycle tasks → validate_task_graph tasks = .ok tasks)) := by
  intro tasks
  constructor
  · rintro ⟨t, ht, d, hd, hmiss⟩
    cases hf : findMissingDep tasks with
    | none => exact absurd (findMissingDep_none tasks hf t ht d hd) hmiss
    | some d2 =>
        obtain ⟨hex, hnot⟩ := findMissingDep_some tasks d2 hf
        refine ⟨d2, hex, hnot, ?_⟩
        unfold validate_task_graph
        rw [hf]
  · intro hnomiss
    have hf : findMissingDep tasks = none := by
      cases hf2 : findMissingDep tasks with
      | none => rfl
      | some d2 =>
          obtain ⟨⟨t, ht, hd⟩, hnot⟩ := findMissingDep_some tasks d2 hf2
          exact absurd (hnomiss t ht d2 hd) hnot
    have hclosed := adjOf_closed tasks hnomiss
    have hng : ∀ x, (fun _ : String => Color.white) x ≠ Color.gray := by
      intro x hx
      cases hx
    have hwc : whiteCount (taskIds tasks) (fun _ => Color.white) <
        (taskIds tasks).length + 1 :=
      Nat.lt_succ_of_le (List.length_filter_le _ _)
    have hrk0 : rankInv (adjOf tasks) (fun _ => Color.white) :=
      ⟨fun _ => 0, by intro u hu; cases hu⟩
    constructor
    · intro hcyc
      unfold validate_task_graph
      rw [hf]
      by_cases hD : (dfsAll (adjOf tasks) ((taskIds tasks).length + 1)
          (fun _ => Color.white) (taskIds tasks)).2 = true
      · simp only [hD, if_true]
      · rw [Bool.not_eq_true] at hD
        have hres := dfsAll_false (adjOf tasks) (taskIds tasks) hclosed
          ((taskIds tasks).length + 1) (taskIds tasks)
          (fun _ => Color.white) (fun x hx => hx) hng hrk0 hwc hD
        exact absurd hcyc (no_cycle_of_rank (adjOf tasks) (taskIds tasks)
          hclosed _ hres.1 hres.2
          (fun u v h => depEdge_start tasks u v h))
    · intro hncyc
      unfold validate_task_graph
      rw [hf]
      by_cases hD : (dfsAll (adjOf tasks) ((taskIds tasks).length + 1)
          (fun _ => Color.white) (taskIds tasks)).2 = true
      · exact absurd (dfsAll_true (adjOf tasks) _ (taskIds tasks) _ hng hD)
          hncyc
      · rw [Bool.not_eq_true] at hD
        simp only [hD]
        rfl

/-- C6 amended witness: the two-task cycle a ↔ b has no missing
dependency and is rejected with the cyclic-dependency message. -/
theorem C6_task_graph_validation_amended_witness :
    validate_task_graph tasksCycle = .error "Cyclic dependency detected" := by
  have e1 : depEdge tasksCycle "a" "b" := by
    unfold depEdge
    decide
  have e2 : depEdge tasksCycle "b" "a" := by
    unfold depEdge
    decide
  exact ((C6_task_graph_validation_amended tasksCycle).2 (by decide)).1
    ⟨"a", Relation.TransGen.tail (Relation.TransGen.single e1) e2⟩

end Amelia
